import Mathlib

/-! Duplicate-email removal by two merge sorts (`Demo/main.c`).

A shallow embedding of the sorting core of `main.c` and of the way `main`
drives it, followed by theorems about the pipeline
`msort(., "email")` then `msort(., "order")`.

Modelling conventions.

* `struct data` is the structure `DATA`; the `email` field holds the bytes of
  the NUL-terminated string stored in `char email[EMAILLENGTH]`, terminator
  excluded, each byte as the `unsigned char` value `strcmp` compares.
* `struct array` is a list of records: `item[0 .. length-1]` is the list and
  `length` is its length. The engine never writes through a `DATA *`, so a
  pointer to a record is modelled by the record.
* The `int` indices and lengths of the program are natural numbers: they are
  never negative in `msort`, `partList` and `merge`, and the arithmetic on them
  stays far below `2^31` for the batch sizes the program is written for.
* `sortBy` is a string; `strcmp(sortBy, "email") == 0` is equality with
  `"email"`.
* Storage is abstract in the model of the engine (`partList`, `merge`, `msort`,
  `main`): every buffer is taken to hold what the program stores in it.
  `partListH`, `mergeH`, `msortH` and `mainH` repeat these functions on a memory
  of `struct array` objects, with the bytes requested from `malloc` for each
  item buffer, the bytes the stores need, and `free`; a run that stores past a
  block ends in `Fault.outOfBounds`.
* The input file is a list of bytes; `fgets` is the C library function, read one
  buffer at a time (`readBuffers`); `ingest` numbers the buffers, and
  `readLoopItem` is the reading loop with the room of `emailList->item`.
* `msortFuel`, `partListLoopFuel` and `mergeFuel` are the same functions on
  their indices with a bound on the number of turns.
-/

namespace Demo

/-! ## Data model -/

/-- The contents of a C string: the bytes before the terminating NUL. -/
abbrev CString := List Nat

/-- Record `struct data`: the position given at ingestion and the email. -/
structure DATA where
  order : Int
  email : CString
  deriving DecidableEq, Repr

/-- Array `struct array`: the records `item[0], ..., item[length-1]`. -/
abbrev ARR := List DATA

/-- The sign of C `strcmp`: byte-wise lexicographic comparison, a proper prefix
being smaller (its terminator is below every byte of a string). Only the sign
is specified by C and only the sign is tested by `merge`; the result is
`-1`, `0` or `1`. -/
def strcmp : CString → CString → Int
  | [], [] => 0
  | [], _ :: _ => -1
  | _ :: _, [] => 1
  | a :: as, b :: bs => if a < b then -1 else if b < a then 1 else strcmp as bs

/-! ## The merge engine -/

/-- The copy loop of `partList`: `newList` is the part copied so far, the loop
runs while `newList->length <= end - start` and appends
`arr->item[newList->length + start]`. A read past the end of `arr` (undefined
in C, never done by `msort`) ends the loop. -/
def partListLoop (arr : ARR) (start stop : Nat) (newList : ARR) : ARR :=
  if (newList.length : Int) ≤ (stop : Int) - (start : Int) then
    match arr[newList.length + start]? with
    | some d => partListLoop arr start stop (newList ++ [d])
    | none => newList
  else newList
termination_by stop + 1 - (newList.length + start)
decreasing_by simp_wf; omega

/-- Function `partList(arr, start, end)`: a new array holding
`arr->item[start .. end]`. -/
def partList (arr : ARR) (start stop : Nat) : ARR :=
  partListLoop arr start stop []

/-- Function `merge(left, right, sortBy)`. The two arguments are the parts of
`left` and `right` from `leftIndex` and `rightIndex` on; the result is what is
appended to `temp` from there. The first two equations are the two copy loops
that run once a side is exhausted, the third is one turn of the main loop with
its three branches. -/
def merge (left right : ARR) (sortBy : String) : ARR :=
  match left, right with
  | [], right => right
  | a :: l, [] => a :: l
  | a :: l, b :: r =>
    if (sortBy = "email" ∧ strcmp a.email b.email < 0)
        ∨ (sortBy = "order" ∧ a.order ≤ b.order) then
      a :: merge l (b :: r) sortBy
    else if (sortBy = "email" ∧ strcmp a.email b.email > 0)
        ∨ (sortBy = "order" ∧ a.order > b.order) then
      b :: merge (a :: l) r sortBy
    else
      a :: merge l r sortBy
termination_by left.length + right.length
decreasing_by all_goals (simp_wf; try omega)

theorem partListLoop_eq (arr : ARR) (start stop : Nat) (newList : ARR) :
    partListLoop arr start stop newList
      = newList ++ ((arr.drop (newList.length + start)).take
          (stop + 1 - (newList.length + start))) := by
  generalize h : stop + 1 - (newList.length + start) = k
  induction k generalizing newList with
  | zero =>
    rw [partListLoop]
    have : ¬ ((newList.length : Int) ≤ (stop : Int) - (start : Int)) := by omega
    simp [this]
  | succ k ih =>
    rw [partListLoop]
    have hc : (newList.length : Int) ≤ (stop : Int) - (start : Int) := by omega
    simp only [hc, if_true]
    cases hd : arr[newList.length + start]? with
    | none =>
      have : arr.length ≤ newList.length + start := by
        simpa using (List.getElem?_eq_none_iff.mp hd)
      simp [List.drop_eq_nil_of_le this]
    | some d =>
      simp only
      rw [ih (newList ++ [d]) (by simp; omega)]
      have hlt : newList.length + start < arr.length := by
        rcases List.getElem?_eq_some.mp hd with ⟨h1, _⟩
        exact h1
      have hd2 : arr[newList.length + start] = d := by
        rcases List.getElem?_eq_some.mp hd with ⟨_, h2⟩
        exact h2
      rw [List.drop_eq_getElem_cons hlt, List.take_succ_cons, hd2]
      have e : (newList ++ [d]).length + start = newList.length + start + 1 := by
        simp only [List.length_append, List.length_singleton]; omega
      rw [e, List.append_assoc, List.singleton_append]

theorem partList_eq (arr : ARR) (start stop : Nat) :
    partList arr start stop = (arr.drop start).take (stop + 1 - start) := by
  simp [partList, partListLoop_eq]

theorem msort_decreasing (arr : ARR) (h : ¬ arr.length ≤ 1) :
    (partList arr 0 ((arr.length - 1) / 2)).length < arr.length
      ∧ (partList arr ((arr.length - 1) / 2 + 1) (arr.length - 1)).length < arr.length := by
  simp only [partList_eq, List.length_take, List.length_drop]
  omega

/-- Function `msort(arr, sortBy)`. `round((arr->length-1)/2)` is the integer quotient
(the division is done on `int`s before `round` sees it). -/
def msort (arr : ARR) (sortBy : String) : ARR :=
  if h : arr.length ≤ 1 then arr
  else
    let m := (arr.length - 1) / 2
    let left := partList arr 0 m
    let right := partList arr (m + 1) (arr.length - 1)
    let left := msort left sortBy
    let right := msort right sortBy
    merge left right sortBy
termination_by arr.length
decreasing_by
  · exact (msort_decreasing arr h).1
  · exact (msort_decreasing arr h).2

/-! ## The variant with a strict test in the "order" branch -/

/-- The variant of `merge` that the design notes consider: the same loop, except that the
left-wins test of the "order" branch is the strict `<`, so that two records of equal
order reach the third branch (emit the left one, advance both cursors). -/
def mergeLt (left right : ARR) (sortBy : String) : ARR :=
  match left, right with
  | [], right => right
  | a :: l, [] => a :: l
  | a :: l, b :: r =>
    if (sortBy = "email" ∧ strcmp a.email b.email < 0)
        ∨ (sortBy = "order" ∧ a.order < b.order) then
      a :: mergeLt l (b :: r) sortBy
    else if (sortBy = "email" ∧ strcmp a.email b.email > 0)
        ∨ (sortBy = "order" ∧ a.order > b.order) then
      b :: mergeLt (a :: l) r sortBy
    else
      a :: mergeLt l r sortBy
termination_by left.length + right.length
decreasing_by all_goals (simp_wf; try omega)

/-- The variant of `msort` that merges with `mergeLt`. -/
def msortLt (arr : ARR) (sortBy : String) : ARR :=
  if h : arr.length ≤ 1 then arr
  else
    let m := (arr.length - 1) / 2
    let left := partList arr 0 m
    let right := partList arr (m + 1) (arr.length - 1)
    let left := msortLt left sortBy
    let right := msortLt right sortBy
    mergeLt left right sortBy
termination_by arr.length
decreasing_by
  · exact (msort_decreasing arr h).1
  · exact (msort_decreasing arr h).2

/-! ## The program `main` -/

/-- The body of the reading loop of `main`, run over the successive contents of `buff`
(trimmed): each becomes a record whose `order` is the current `emailList->length`, stored
at that index. The room of `emailList->item` is left out here; `readLoopItem` is the same
loop with that room. -/
def readLoop (emailList : ARR) : List CString → ARR
  | [] => emailList
  | buff :: rest =>
    readLoop (emailList ++ [{ order := (emailList.length : Int), email := buff }]) rest

/-- The batch `emailList` that `main` builds from the lines of the input file (the room
of `emailList->item` left out, see `readFile`). -/
def ingest (lines : List CString) : ARR :=
  readLoop [] lines

/-- What `main` writes: the two numbers of the summary line and the emails printed
after it, one per line. -/
structure Output where
  sorted : Int
  found : Int
  lines : List CString
  deriving DecidableEq, Repr

/-- Function `main` after the file has been read: the two sorts, then the report
`"Sorted %d values. Found %d duplicates"` with `emailList->length` and
`emailList->length - sortedList->length`, then `sortedList->item[i]->email` for every
`i`. -/
def main (lines : List CString) : Output :=
  let emailList := ingest lines
  let sortedList := msort emailList "email"
  let sortedList := msort sortedList "order"
  { sorted := (emailList.length : Int)
    found := (emailList.length : Int) - (sortedList.length : Int)
    lines := sortedList.map DATA.email }

/-- The bytes of a string literal, to write test inputs. -/
def bytes (s : String) : CString := s.toList.map Char.toNat

/-! ## Reading the input file -/

/-- Constant `MAXSIZE`: the assumed maximum number of emails. -/
def MAXSIZE : Nat := 150000

/-- Constant `EMAILLENGTH`: the size of `buff` and of the `email` field. -/
def EMAILLENGTH : Nat := 50

/-- The value of `sizeof(DATA)`: an `int` and 50 `char`, padded to a multiple of the
alignment of `int` (4 bytes). -/
def sizeofDATA : Nat := 56

/-- The value of `sizeof(DATA *)`, the size of one entry of an `item` buffer, on a
platform with 64-bit pointers. -/
def sizeofPointer : Nat := 8

/-- The number of entries that fit in `emailList->item`, a block of
`sizeof(DATA)*MAXSIZE` bytes. -/
def itemRoom : Nat := sizeofDATA * MAXSIZE / sizeofPointer

/-- The bytes that one call of the C library function `fgets` takes from a stream when
there is room for `room` more bytes: it stops when the room is used up, at the end of
the stream, or after a newline (byte 10), which it keeps. The result is the bytes stored
and the rest of the stream. -/
def fgetsLoop : Nat → List Nat → CString × List Nat
  | 0, stream => ([], stream)
  | _ + 1, [] => ([], [])
  | room + 1, c :: stream =>
    if c = 10 then ([c], stream)
    else (c :: (fgetsLoop room stream).1, (fgetsLoop room stream).2)

/-- The C library function `fgets(buff, size, stream)`: `none` (a null pointer) at the
end of the stream, else at most `size - 1` bytes, to which it appends the NUL. -/
def fgets (size : Nat) (stream : List Nat) : Option (CString × List Nat) :=
  match stream with
  | [] => none
  | c :: rest => some (fgetsLoop (size - 1) (c :: rest))

/-- The C string held by a buffer: its bytes before the first NUL (byte 0), which is
where `strlen` and `strcpy` stop. -/
def cstr (buff : List Nat) : CString :=
  buff.takeWhile (fun c => decide (c ≠ 0))

/-- The trimming of `main`, on the C string in `buff`:
`if (buff[strlen(buff)-1] == '\n') buff[strlen(buff)-1] = '\0'`. On the empty string the
program tests and writes the byte before `buff`; the string stays empty. -/
def trimNewline (buff : CString) : CString :=
  if buff.getLast? = some 10 then buff.dropLast else buff

theorem fgetsLoop_rest_length (room : Nat) (c : Nat) (stream : List Nat) :
    (fgetsLoop (room + 1) (c :: stream)).2.length < (c :: stream).length := by
  induction room generalizing c stream with
  | zero =>
    simp only [fgetsLoop]
    split_ifs <;> simp
  | succ k ih =>
    rw [fgetsLoop]
    split_ifs
    · simp
    · cases stream with
      | nil => simp [fgetsLoop]
      | cons d ds =>
        have := ih d ds
        simp only [List.length_cons] at this ⊢
        omega

theorem fgets_rest_length (stream : List Nat) (buff : CString) (rest : List Nat)
    (h : fgets EMAILLENGTH stream = some (buff, rest)) : rest.length < stream.length := by
  cases stream with
  | nil => simp [fgets] at h
  | cons c cs =>
    simp only [fgets, Option.some.injEq] at h
    have := fgetsLoop_rest_length 48 c cs
    have e : EMAILLENGTH - 1 = 48 + 1 := rfl
    rw [e] at h
    rw [h] at this
    exact this

/-- The reading loop of `main` seen from the file: the successive strings that
`strcpy(newData->email, buff)` copies, one for every call of
`fgets(buff, sizeof(buff), inputFile)` that does not return a null pointer: the C string
in `buff`, trimmed. -/
def readBuffers (stream : List Nat) : List CString :=
  match h : fgets EMAILLENGTH stream with
  | none => []
  | some (buff, rest) =>
    have : rest.length < stream.length := fgets_rest_length stream buff rest h
    trimNewline (cstr buff) :: readBuffers rest
termination_by stream.length

/-- The reading loop of `main` with the room of `emailList->item`: the store
`emailList->item[emailList->length] = newData` needs `emailList->length < itemRoom`;
`none` stands for a run that stores past the end of the block. The loop has no other test
than the result of `fgets`. -/
def readLoopItem (emailList : ARR) : List CString → Option ARR
  | [] => some emailList
  | buff :: rest =>
    if emailList.length < itemRoom then
      readLoopItem (emailList ++ [{ order := (emailList.length : Int), email := buff }]) rest
    else none

/-- The batch `emailList` that `main` builds from the input file. -/
def readFile (stream : List Nat) : Option ARR :=
  readLoopItem [] (readBuffers stream)

/-- A text file with one given line per row: the lines separated by newlines, nothing
after the last one (assumptions 1 to 3 of the header). -/
def fileOf : List CString → List Nat
  | [] => []
  | [l] => l
  | l :: l2 :: ls => l ++ 10 :: fileOf (l2 :: ls)

/-! ## The loops on their indices, with a bound on the number of turns -/

/-- The copy loop of `partList` with at most `fuel` tests of its condition: `none` when
the bound is reached before the loop ends. -/
def partListLoopFuel (arr : ARR) (start stop : Nat) : Nat → ARR → Option ARR
  | 0, _ => none
  | fuel + 1, newList =>
    if (newList.length : Int) ≤ (stop : Int) - (start : Int) then
      match arr[newList.length + start]? with
      | some d => partListLoopFuel arr start stop fuel (newList ++ [d])
      | none => some newList
    else some newList

/-- The variables of `merge`: the two cursors and the filled part of `temp`. -/
structure MergeState where
  leftIndex : Nat
  rightIndex : Nat
  temp : ARR
  deriving DecidableEq, Repr

/-- The main loop of `merge` on the cursors, with at most `fuel` tests of its condition
`leftIndex < left->length && rightIndex < right->length` (both items exist). -/
def mergeMainLoop (left right : ARR) (sortBy : String) : Nat → MergeState → Option MergeState
  | 0, _ => none
  | fuel + 1, st =>
    match left[st.leftIndex]?, right[st.rightIndex]? with
    | some a, some b =>
      if (sortBy = "email" ∧ strcmp a.email b.email < 0)
          ∨ (sortBy = "order" ∧ a.order ≤ b.order) then
        mergeMainLoop left right sortBy fuel
          { leftIndex := st.leftIndex + 1, rightIndex := st.rightIndex, temp := st.temp ++ [a] }
      else if (sortBy = "email" ∧ strcmp a.email b.email > 0)
          ∨ (sortBy = "order" ∧ a.order > b.order) then
        mergeMainLoop left right sortBy fuel
          { leftIndex := st.leftIndex, rightIndex := st.rightIndex + 1, temp := st.temp ++ [b] }
      else
        mergeMainLoop left right sortBy fuel
          { leftIndex := st.leftIndex + 1, rightIndex := st.rightIndex + 1,
            temp := st.temp ++ [a] }
    | _, _ => some st

/-- One of the two copy loops that end `merge`: `while (index < src->length)`, with at
most `fuel` tests of the condition. -/
def mergeCopyLoop (src : ARR) : Nat → Nat → ARR → Option ARR
  | 0, _, _ => none
  | fuel + 1, index, temp =>
    match src[index]? with
    | some d => mergeCopyLoop src fuel (index + 1) (temp ++ [d])
    | none => some temp

/-- Function `merge` as its three loops in sequence, each with at most `fuel` turns. -/
def mergeFuel (fuel : Nat) (left right : ARR) (sortBy : String) : Option ARR :=
  match mergeMainLoop left right sortBy fuel { leftIndex := 0, rightIndex := 0, temp := [] } with
  | none => none
  | some st =>
    match mergeCopyLoop left fuel st.leftIndex st.temp with
    | none => none
    | some temp => mergeCopyLoop right fuel st.rightIndex temp

/-- Function `msort` with recursion depth at most `fuel` and at most `fuel` turns of every
loop it runs: `none` when a bound is reached. -/
def msortFuel : Nat → ARR → String → Option ARR
  | 0, _, _ => none
  | fuel + 1, arr, sortBy =>
    if arr.length ≤ 1 then some arr
    else
      match partListLoopFuel arr 0 ((arr.length - 1) / 2) (fuel + 1) [],
        partListLoopFuel arr ((arr.length - 1) / 2 + 1) (arr.length - 1) (fuel + 1) [] with
      | some left, some right =>
        match msortFuel fuel left sortBy, msortFuel fuel right sortBy with
        | some left, some right => mergeFuel (fuel + 1) left right sortBy
        | _, _ => none
      | _, _ => none

/-! ## The arrays as objects in memory -/

/-- The `struct array` objects in memory, by address: `some a` for a live object whose
items are `a`, `none` for an object that has been freed. -/
abbrev Heap := List (Option ARR)

/-- Reading through a pointer: the items of the object at address `p`, `none` when `p`
is not the address of a live object. -/
def load (h : Heap) (p : Nat) : Option ARR :=
  match h[p]? with
  | some (some a) => some a
  | _ => none

/-- A new `struct array` whose item buffer has been filled with the items `a`: the memory
with the new object and its address, which is the address of no earlier object. -/
def alloc (h : Heap) (a : ARR) : Heap × Nat :=
  (h ++ [some a], h.length)

/-- What ends a run on the memory before the function returns: the bound on the recursion
depth is reached, a pointer to no live object is read, an entry is stored past the end of
an item buffer, or an object is freed twice. The last three are undefined behaviour. -/
inductive Fault where
  | depth
  | dangling
  | outOfBounds
  | doubleFree
  deriving DecidableEq, Repr

/-- The calls `free(p->item); free(p);`. -/
def release (h : Heap) (p : Nat) : Except Fault Heap :=
  match load h p with
  | some _ => Except.ok (h.set p none)
  | none => Except.error Fault.doubleFree

/-- The allocator the C standard promises: a block of exactly the bytes requested. -/
def exactMalloc (request : Nat) : Nat := request

/-- Function `partList(arr, start, end)` on the memory. `grant request` is the number of
usable bytes of the block `malloc(request)` returns. The item buffer is requested with
`sizeof(DATA)*end-start+1` bytes (in the calls of `msort`, `start <= end` and the
subtraction does not wrap); the copy loop then stores one pointer per item, the last of
them ending at byte `sizeof(DATA *)` times the number of items, which must lie within the
block. The loop reads `arr` and writes into the new object. -/
def partListH (grant : Nat → Nat) (h : Heap) (arr : Nat) (start stop : Nat) :
    Except Fault (Heap × Nat) :=
  match load h arr with
  | none => Except.error Fault.dangling
  | some a =>
    if sizeofPointer * (partList a start stop).length
        ≤ grant (sizeofDATA * stop - start + 1) then
      Except.ok (alloc h (partList a start stop))
    else Except.error Fault.outOfBounds

/-- Function `merge(left, right, sortBy)` on the memory: `temp->item` is requested with
`sizeof(DATA)*(left->length+right->length)` bytes; the loops read `left` and `right` and
store one pointer per record emitted into `temp`. -/
def mergeH (grant : Nat → Nat) (h : Heap) (left right : Nat) (sortBy : String) :
    Except Fault (Heap × Nat) :=
  match load h left, load h right with
  | some l, some r =>
    if sizeofPointer * (merge l r sortBy).length
        ≤ grant (sizeofDATA * (l.length + r.length)) then
      Except.ok (alloc h (merge l r sortBy))
    else Except.error Fault.outOfBounds
  | _, _ => Except.error Fault.dangling

/-- Function `msort(arr, sortBy)` on the memory, with recursion depth at most `fuel`:
the memory after the call and the pointer returned, or what ended the run. -/
def msortH (grant : Nat → Nat) : Nat → Heap → Nat → String → Except Fault (Heap × Nat)
  | 0, _, _, _ => Except.error Fault.depth
  | fuel + 1, h, arr, sortBy =>
    match load h arr with
    | none => Except.error Fault.dangling
    | some a =>
      if a.length ≤ 1 then Except.ok (h, arr)
      else
        match partListH grant h arr 0 ((a.length - 1) / 2) with
        | Except.error e => Except.error e
        | Except.ok (h1, left) =>
          match partListH grant h1 arr ((a.length - 1) / 2 + 1) (a.length - 1) with
          | Except.error e => Except.error e
          | Except.ok (h2, right) =>
            match msortH grant fuel h2 left sortBy with
            | Except.error e => Except.error e
            | Except.ok (h3, left) =>
              match msortH grant fuel h3 right sortBy with
              | Except.error e => Except.error e
              | Except.ok (h4, right) =>
                match mergeH grant h4 left right sortBy with
                | Except.error e => Except.error e
                | Except.ok (h5, sorted) =>
                  match release h5 left with
                  | Except.error e => Except.error e
                  | Except.ok h6 =>
                    match release h6 right with
                    | Except.error e => Except.error e
                    | Except.ok h7 => Except.ok (h7, sorted)

/-- Function `main` on the memory, from the reading loop to the report: `emailList->item`
is a block of `sizeof(DATA)*MAXSIZE` bytes that receives one pointer per line; after the
two sorts `emailList->length` and `sortedList->length` are read and the emails of
`sortedList` printed. -/
def mainH (grant : Nat → Nat) (fuel : Nat) (lines : List CString) : Except Fault Output :=
  if sizeofPointer * (ingest lines).length ≤ grant (sizeofDATA * MAXSIZE) then
    match alloc [] (ingest lines) with
    | (h, emailList) =>
      match msortH grant fuel h emailList "email" with
      | Except.error e => Except.error e
      | Except.ok (h1, sortedList) =>
        match msortH grant fuel h1 sortedList "order" with
        | Except.error e => Except.error e
        | Except.ok (h2, sortedList) =>
          match load h2 emailList, load h2 sortedList with
          | some e, some s =>
            Except.ok { sorted := (e.length : Int)
                        found := (e.length : Int) - (s.length : Int)
                        lines := s.map DATA.email }
          | _, _ => Except.error Fault.dangling
  else Except.error Fault.outOfBounds

/-! ## Reference notions the claims are stated with -/

/-- The sequence with every later repetition of an already-seen value removed: `seen`
holds the values met so far. -/
def dropSeen (seen : List CString) : List CString → List CString
  | [] => []
  | e :: es => if e ∈ seen then dropSeen seen es else e :: dropSeen (e :: seen) es

/-- First-occurrence deduplication of a sequence of values. -/
def firstOccurrences (l : List CString) : List CString :=
  dropSeen [] l

/-- The number of entries whose value already occurred earlier (`seen` holds the values
met so far). -/
def countSeen (seen : List CString) : List CString → Nat
  | [] => 0
  | e :: es => (if e ∈ seen then 1 else 0) + countSeen (e :: seen) es

/-- The records of a batch that are the first of the batch to carry their email. -/
def firstCopies : ARR → ARR
  | [] => []
  | a :: l => a :: (firstCopies l).filter (fun b => decide (b.email ≠ a.email))

/-- Emails strictly ascending under `strcmp`. -/
def EmailBefore (a b : DATA) : Prop := strcmp a.email b.email < 0

/-- Orders non-decreasing. -/
def OrderLe (a b : DATA) : Prop := a.order ≤ b.order

/-- Orders strictly increasing. -/
def OrderLt (a b : DATA) : Prop := a.order < b.order

instance : DecidableRel EmailBefore := fun a b => by unfold EmailBefore; exact inferInstance
instance : DecidableRel OrderLe := fun a b => by unfold OrderLe; exact inferInstance
instance : DecidableRel OrderLt := fun a b => by unfold OrderLt; exact inferInstance

/-! ## How `msort` unfolds -/

theorem msort_of_length_le_one (arr : ARR) (sortBy : String) (h : arr.length ≤ 1) :
    msort arr sortBy = arr := by
  rw [msort]; simp [h]

theorem msort_of_one_lt_length (arr : ARR) (sortBy : String) (h : 1 < arr.length) :
    msort arr sortBy
      = merge (msort (arr.take ((arr.length - 1) / 2 + 1)) sortBy)
          (msort (arr.drop ((arr.length - 1) / 2 + 1)) sortBy) sortBy := by
  rw [msort]
  have h1 : ¬ arr.length ≤ 1 := by omega
  simp only [h1, dite_false, partList_eq, List.drop_zero, Nat.sub_zero]
  have h2 : arr.length - 1 + 1 - ((arr.length - 1) / 2 + 1)
      = (arr.drop ((arr.length - 1) / 2 + 1)).length := by
    simp only [List.length_drop]; omega
  rw [h2, List.take_length]

/-- Induction along the recursion of `msort`: a relation between a batch and its sorted
form that holds for batches of length at most one and is carried by `merge` from the two
halves to the whole holds for every batch. -/
theorem msort_induction (sortBy : String) (P : ARR → ARR → Prop)
    (base : ∀ arr : ARR, arr.length ≤ 1 → P arr arr)
    (step : ∀ l r : ARR, l ≠ [] → r ≠ [] → P l (msort l sortBy) → P r (msort r sortBy) →
      P (l ++ r) (merge (msort l sortBy) (msort r sortBy) sortBy)) :
    ∀ arr : ARR, P arr (msort arr sortBy) := by
  intro arr
  generalize hn : arr.length = n
  induction n using Nat.strong_induction_on generalizing arr with
  | _ n ih =>
    by_cases h : arr.length ≤ 1
    · rw [msort_of_length_le_one arr sortBy h]; exact base arr h
    · have h1 : 1 < arr.length := by omega
      rw [msort_of_one_lt_length arr sortBy h1]
      have hl : (arr.take ((arr.length - 1) / 2 + 1)).length < n := by
        simp only [List.length_take]; omega
      have hr : (arr.drop ((arr.length - 1) / 2 + 1)).length < n := by
        simp only [List.length_drop]; omega
      have key := step (arr.take ((arr.length - 1) / 2 + 1)) (arr.drop ((arr.length - 1) / 2 + 1))
        (by
          apply List.ne_nil_of_length_pos
          simp only [List.length_take]; omega)
        (by
          apply List.ne_nil_of_length_pos
          simp only [List.length_drop]; omega)
        (ih _ hl _ rfl) (ih _ hr _ rfl)
      rwa [List.take_append_drop] at key

/-! ## Facts about `strcmp` -/

theorem strcmp_eq_zero_iff (a b : CString) : strcmp a b = 0 ↔ a = b := by
  induction a generalizing b with
  | nil => cases b <;> simp [strcmp]
  | cons x xs ih =>
    cases b with
    | nil => simp [strcmp]
    | cons y ys =>
      simp only [strcmp, List.cons.injEq]
      split_ifs with h1 h2
      · constructor
        · intro h; exact absurd h (by decide)
        · rintro ⟨h, _⟩; omega
      · constructor
        · intro h; exact absurd h (by decide)
        · rintro ⟨h, _⟩; omega
      · rw [ih]
        constructor
        · intro h; exact ⟨by omega, h⟩
        · rintro ⟨_, h⟩; exact h

theorem strcmp_pos_iff (a b : CString) : strcmp a b > 0 ↔ strcmp b a < 0 := by
  induction a generalizing b with
  | nil => cases b <;> simp [strcmp]
  | cons x xs ih =>
    cases b with
    | nil => simp [strcmp]
    | cons y ys =>
      simp only [strcmp]
      split_ifs <;> first | omega | exact ih ys

theorem strcmp_lt_trans (a b c : CString) (h1 : strcmp a b < 0) (h2 : strcmp b c < 0) :
    strcmp a c < 0 := by
  induction a generalizing b c with
  | nil =>
    cases c with
    | nil => cases b <;> simp [strcmp] at h1 h2
    | cons z zs => simp [strcmp]
  | cons x xs ih =>
    cases b with
    | nil => simp [strcmp] at h1
    | cons y ys =>
      cases c with
      | nil => simp [strcmp] at h2
      | cons z zs =>
        simp only [strcmp] at h1 h2 ⊢
        split_ifs at h1 h2 ⊢ <;> first | omega | exact ih ys zs h1 h2

theorem strcmp_self (a : CString) : strcmp a a = 0 :=
  (strcmp_eq_zero_iff a a).2 rfl

/-! ## How `merge` unfolds -/

theorem merge_nil_left (right : ARR) (sortBy : String) : merge [] right sortBy = right := by
  rw [merge]

theorem merge_nil_right (left : ARR) (sortBy : String) : merge left [] sortBy = left := by
  cases left <;> rw [merge]

theorem merge_email_cons (a : DATA) (l : ARR) (b : DATA) (r : ARR) :
    merge (a :: l) (b :: r) "email"
      = if strcmp a.email b.email < 0 then a :: merge l (b :: r) "email"
        else if strcmp a.email b.email > 0 then b :: merge (a :: l) r "email"
        else a :: merge l r "email" := by
  rw [merge]; simp

theorem merge_order_cons (a : DATA) (l : ARR) (b : DATA) (r : ARR) :
    merge (a :: l) (b :: r) "order"
      = if a.order ≤ b.order then a :: merge l (b :: r) "order"
        else b :: merge (a :: l) r "order" := by
  rw [merge]
  by_cases h : a.order ≤ b.order
  · simp [h]
  · have h2 : b.order < a.order := by omega
    simp [h, h2]

theorem mem_merge (sortBy : String) (x : DATA) (l r : ARR) (h : x ∈ merge l r sortBy) :
    x ∈ l ∨ x ∈ r := by
  induction l generalizing r with
  | nil => rw [merge_nil_left] at h; exact Or.inr h
  | cons a l ihl =>
    induction r with
    | nil => rw [merge_nil_right] at h; exact Or.inl h
    | cons b r ihr =>
      rw [merge] at h
      split_ifs at h
      · rcases List.mem_cons.1 h with h | h
        · exact Or.inl (h ▸ List.mem_cons_self _ _)
        · rcases ihl _ h with h | h
          · exact Or.inl (List.mem_cons_of_mem _ h)
          · exact Or.inr h
      · rcases List.mem_cons.1 h with h | h
        · exact Or.inr (h ▸ List.mem_cons_self _ _)
        · rcases ihr h with h | h
          · exact Or.inl h
          · exact Or.inr (List.mem_cons_of_mem _ h)
      · rcases List.mem_cons.1 h with h | h
        · exact Or.inl (h ▸ List.mem_cons_self _ _)
        · rcases ihl _ h with h | h
          · exact Or.inl (List.mem_cons_of_mem _ h)
          · exact Or.inr (List.mem_cons_of_mem _ h)

/-! ## Merging by email -/

theorem EmailBefore.trans {a b c : DATA} (h1 : EmailBefore a b) (h2 : EmailBefore b c) :
    EmailBefore a c :=
  strcmp_lt_trans _ _ _ h1 h2

theorem EmailBefore.email_ne {a b : DATA} (h : EmailBefore a b) : a.email ≠ b.email := by
  intro e
  unfold EmailBefore at h
  rw [e, strcmp_self] at h
  exact absurd h (by decide)

theorem EmailBefore.of_eq_left {a b c : DATA} (e : a.email = b.email) (h : EmailBefore b c) :
    EmailBefore a c := by
  unfold EmailBefore at h ⊢; rw [e]; exact h

/-- Every email of a batch that lies strictly above `a` differs from the email of `a`. -/
theorem email_not_mem_of_before (a : DATA) (l : ARR) (h : ∀ x ∈ l, EmailBefore a x) :
    a.email ∉ l.map DATA.email := by
  intro hm
  rcases List.mem_map.1 hm with ⟨x, hx, e⟩
  exact (h x hx).email_ne e.symm

theorem not_before_not_after_eq {a b : DATA} (h1 : ¬ strcmp a.email b.email < 0)
    (h2 : ¬ strcmp a.email b.email > 0) : a.email = b.email :=
  (strcmp_eq_zero_iff _ _).1 (by omega)

theorem merge_email_perm (l r : ARR) (hl : l.Pairwise EmailBefore)
    (hr : r.Pairwise EmailBefore) :
    (merge l r "email").Perm
      (l ++ r.filter (fun b => decide (b.email ∉ l.map DATA.email))) := by
  induction l generalizing r with
  | nil => simp [merge_nil_left]
  | cons a l ihl =>
    induction r with
    | nil => simp [merge_nil_right]
    | cons b r ihr =>
      have hal : ∀ x ∈ l, EmailBefore a x := fun x hx => List.rel_of_pairwise_cons hl hx
      have hbr : ∀ x ∈ r, EmailBefore b x := fun x hx => List.rel_of_pairwise_cons hr hx
      rw [merge_email_cons]
      split_ifs with h1 h2
      · -- the left record is smaller
        have hf : (b :: r).filter (fun x => decide (x.email ∉ (a :: l).map DATA.email))
            = (b :: r).filter (fun x => decide (x.email ∉ l.map DATA.email)) := by
          apply List.filter_congr
          intro x hx
          have hax : EmailBefore a x := by
            rcases List.mem_cons.1 hx with hx | hx
            · rw [hx]; exact h1
            · exact EmailBefore.trans h1 (hbr x hx)
          have := hax.email_ne
          simp [List.mem_cons, Ne.symm this]
        rw [hf, List.cons_append]
        exact (ihl (b :: r) (List.Pairwise.of_cons hl) hr).cons a
      · -- the right record is smaller
        have hba : EmailBefore b a := (strcmp_pos_iff _ _).1 h2
        have hb : b.email ∉ (a :: l).map DATA.email := by
          apply email_not_mem_of_before
          intro x hx
          rcases List.mem_cons.1 hx with hx | hx
          · rw [hx]; exact hba
          · exact EmailBefore.trans hba (hal x hx)
        rw [List.filter_cons_of_pos (by simpa using hb)]
        exact ((ihr (List.Pairwise.of_cons hr)).cons b).trans List.perm_middle.symm
      · -- same email: the left record is taken, the right one is passed over
        have e : a.email = b.email := not_before_not_after_eq h1 h2
        have hb : ¬ (b.email ∉ (a :: l).map DATA.email) := by
          simp [e]
        rw [List.filter_cons_of_neg (by simpa using hb)]
        have hf : r.filter (fun x => decide (x.email ∉ (a :: l).map DATA.email))
            = r.filter (fun x => decide (x.email ∉ l.map DATA.email)) := by
          apply List.filter_congr
          intro x hx
          have hax : EmailBefore a x := EmailBefore.of_eq_left e (hbr x hx)
          have := hax.email_ne
          simp [List.mem_cons, Ne.symm this]
        rw [hf, List.cons_append]
        exact (ihl r (List.Pairwise.of_cons hl) (List.Pairwise.of_cons hr)).cons a

theorem merge_email_sorted (l r : ARR) (hl : l.Pairwise EmailBefore)
    (hr : r.Pairwise EmailBefore) : (merge l r "email").Pairwise EmailBefore := by
  induction l generalizing r with
  | nil => rw [merge_nil_left]; exact hr
  | cons a l ihl =>
    induction r with
    | nil => rw [merge_nil_right]; exact hl
    | cons b r ihr =>
      have hal : ∀ x ∈ l, EmailBefore a x := fun x hx => List.rel_of_pairwise_cons hl hx
      have hbr : ∀ x ∈ r, EmailBefore b x := fun x hx => List.rel_of_pairwise_cons hr hx
      rw [merge_email_cons]
      split_ifs with h1 h2
      · refine List.pairwise_cons.2 ⟨?_, ihl (b :: r) (List.Pairwise.of_cons hl) hr⟩
        intro x hx
        rcases mem_merge _ _ _ _ hx with hx | hx
        · exact hal x hx
        · rcases List.mem_cons.1 hx with hx | hx
          · rw [hx]; exact h1
          · exact EmailBefore.trans h1 (hbr x hx)
      · have hba : EmailBefore b a := (strcmp_pos_iff _ _).1 h2
        refine List.pairwise_cons.2 ⟨?_, ihr (List.Pairwise.of_cons hr)⟩
        intro x hx
        rcases mem_merge _ _ _ _ hx with hx | hx
        · rcases List.mem_cons.1 hx with hx | hx
          · rw [hx]; exact hba
          · exact EmailBefore.trans hba (hal x hx)
        · exact hbr x hx
      · have e : a.email = b.email := not_before_not_after_eq h1 h2
        refine List.pairwise_cons.2
          ⟨?_, ihl r (List.Pairwise.of_cons hl) (List.Pairwise.of_cons hr)⟩
        intro x hx
        rcases mem_merge _ _ _ _ hx with hx | hx
        · exact hal x hx
        · exact EmailBefore.of_eq_left e (hbr x hx)

/-! ## First copies -/

theorem firstCopies_sublist (l : ARR) : (firstCopies l).Sublist l := by
  induction l with
  | nil => exact List.Sublist.refl _
  | cons a l ih =>
    simp only [firstCopies]
    exact ((List.filter_sublist _).trans ih).cons₂ a

theorem mem_map_email_firstCopies (l : ARR) (e : CString) :
    e ∈ (firstCopies l).map DATA.email ↔ e ∈ l.map DATA.email := by
  induction l with
  | nil => simp [firstCopies]
  | cons a l ih =>
    simp only [firstCopies, List.map_cons, List.mem_cons]
    constructor
    · rintro (h | h)
      · exact Or.inl h
      · rcases List.mem_map.1 h with ⟨x, hx, rfl⟩
        exact Or.inr (ih.1 (List.mem_map.2 ⟨x, (List.mem_filter.1 hx).1, rfl⟩))
    · rintro (h | h)
      · exact Or.inl h
      · by_cases hea : e = a.email
        · exact Or.inl hea
        · rcases List.mem_map.1 (ih.2 h) with ⟨x, hx, rfl⟩
          exact Or.inr (List.mem_map.2 ⟨x, List.mem_filter.2 ⟨hx, by simpa using hea⟩, rfl⟩)

theorem firstCopies_append (l r : ARR) :
    firstCopies (l ++ r)
      = firstCopies l
        ++ (firstCopies r).filter (fun b => decide (b.email ∉ l.map DATA.email)) := by
  induction l with
  | nil => simp [firstCopies]
  | cons a l ih =>
    have e1 : firstCopies (a :: l ++ r)
        = a :: (firstCopies (l ++ r)).filter (fun b => decide (b.email ≠ a.email)) := rfl
    have e2 : firstCopies (a :: l)
        = a :: (firstCopies l).filter (fun b => decide (b.email ≠ a.email)) := rfl
    rw [e1, e2, ih, List.filter_append, List.filter_filter, List.cons_append]
    congr 2
    apply List.filter_congr
    intro x _
    by_cases h1 : x.email = a.email <;> by_cases h2 : x.email ∈ l.map DATA.email <;>
      simp [h1, h2]

theorem firstCopies_of_length_le_one (l : ARR) (h : l.length ≤ 1) : firstCopies l = l := by
  match l, h with
  | [], _ => rfl
  | [a], _ => rfl

/-- What the sort by email computes: the first copies of the batch, in strictly
ascending order of email. -/
theorem msort_email_spec (arr : ARR) :
    (msort arr "email").Pairwise EmailBefore ∧ (msort arr "email").Perm (firstCopies arr) := by
  refine msort_induction "email"
    (fun arr out => out.Pairwise EmailBefore ∧ out.Perm (firstCopies arr)) ?_ ?_ arr
  · intro arr h
    refine ⟨?_, ?_⟩
    · match arr, h with
      | [], _ => exact List.Pairwise.nil
      | [a], _ => exact List.pairwise_singleton _ _
    · rw [firstCopies_of_length_le_one arr h]
  · rintro l r _ _ ⟨hl, pl⟩ ⟨hr, pr⟩
    refine ⟨merge_email_sorted _ _ hl hr, ?_⟩
    refine (merge_email_perm _ _ hl hr).trans ?_
    rw [firstCopies_append]
    have hf : (firstCopies r).filter
          (fun b => decide (b.email ∉ (msort l "email").map DATA.email))
        = (firstCopies r).filter (fun b => decide (b.email ∉ l.map DATA.email)) := by
      apply List.filter_congr
      intro x _
      have : x.email ∈ (msort l "email").map DATA.email ↔ x.email ∈ l.map DATA.email := by
        rw [← mem_map_email_firstCopies l]
        exact (pl.map DATA.email).mem_iff
      simp only [this]
    rw [← hf]
    exact pl.append (pr.filter _)

/-! ## Merging by order -/

theorem merge_order_perm (l r : ARR) : (merge l r "order").Perm (l ++ r) := by
  induction l generalizing r with
  | nil => simp [merge_nil_left]
  | cons a l ihl =>
    induction r with
    | nil => simp [merge_nil_right]
    | cons b r ihr =>
      rw [merge_order_cons]
      split_ifs with h
      · exact (ihl (b :: r)).cons a
      · exact (ihr.cons b).trans List.perm_middle.symm

theorem merge_order_sorted (l r : ARR) (hl : l.Pairwise OrderLe) (hr : r.Pairwise OrderLe) :
    (merge l r "order").Pairwise OrderLe := by
  induction l generalizing r with
  | nil => rw [merge_nil_left]; exact hr
  | cons a l ihl =>
    induction r with
    | nil => rw [merge_nil_right]; exact hl
    | cons b r ihr =>
      have hal : ∀ x ∈ l, OrderLe a x := fun x hx => List.rel_of_pairwise_cons hl hx
      have hbr : ∀ x ∈ r, OrderLe b x := fun x hx => List.rel_of_pairwise_cons hr hx
      rw [merge_order_cons]
      split_ifs with h
      · refine List.pairwise_cons.2 ⟨?_, ihl (b :: r) (List.Pairwise.of_cons hl) hr⟩
        intro x hx
        rcases mem_merge _ _ _ _ hx with hx | hx
        · exact hal x hx
        · rcases List.mem_cons.1 hx with hx | hx
          · rw [hx]; exact h
          · have := hbr x hx
            unfold OrderLe at this ⊢; omega
      · refine List.pairwise_cons.2 ⟨?_, ihr (List.Pairwise.of_cons hr)⟩
        intro x hx
        rcases mem_merge _ _ _ _ hx with hx | hx
        · rcases List.mem_cons.1 hx with hx | hx
          · rw [hx]; unfold OrderLe; omega
          · have := hal x hx
            unfold OrderLe at this ⊢; omega
        · exact hbr x hx

/-- The records of one order value come out of `merge` as those of the left part followed
by those of the right part. -/
theorem merge_order_filter (k : Int) (l r : ARR) (hl : l.Pairwise OrderLe) :
    (merge l r "order").filter (fun x => decide (x.order = k))
      = l.filter (fun x => decide (x.order = k))
        ++ r.filter (fun x => decide (x.order = k)) := by
  induction l generalizing r with
  | nil => simp [merge_nil_left]
  | cons a l ihl =>
    induction r with
    | nil => simp [merge_nil_right]
    | cons b r ihr =>
      have hal : ∀ x ∈ l, OrderLe a x := fun x hx => List.rel_of_pairwise_cons hl hx
      rw [merge_order_cons]
      split_ifs with h
      · by_cases ha : a.order = k
        · rw [List.filter_cons_of_pos (by simpa using ha),
            List.filter_cons_of_pos (by simpa using ha), ihl (b :: r) (List.Pairwise.of_cons hl),
            List.cons_append]
        · rw [List.filter_cons_of_neg (by simpa using ha),
            List.filter_cons_of_neg (by simpa using ha), ihl (b :: r) (List.Pairwise.of_cons hl)]
      · by_cases hb : b.order = k
        · have hnone : (a :: l).filter (fun x => decide (x.order = k)) = [] := by
            rw [List.filter_eq_nil_iff]
            intro x hx
            have : a.order ≤ x.order := by
              rcases List.mem_cons.1 hx with hx | hx
              · rw [hx]
              · exact hal x hx
            simp only [decide_eq_true_eq]
            omega
          rw [List.filter_cons_of_pos (by simpa using hb), ihr, hnone,
            List.filter_cons_of_pos (by simpa using hb), List.nil_append, List.nil_append]
        · have eb : (b :: r).filter (fun x => decide (x.order = k))
              = r.filter (fun x => decide (x.order = k)) :=
            List.filter_cons_of_neg (by simpa using hb)
          rw [List.filter_cons_of_neg (by simpa using hb), ihr, eb]

/-- What the sort by order computes: a permutation of the batch, with non-decreasing
orders, in which the records of each order value keep their sequence. -/
theorem msort_order_spec (arr : ARR) :
    (msort arr "order").Perm arr ∧ (msort arr "order").Pairwise OrderLe
      ∧ ∀ k : Int, (msort arr "order").filter (fun x => decide (x.order = k))
          = arr.filter (fun x => decide (x.order = k)) := by
  refine msort_induction "order"
    (fun arr out => out.Perm arr ∧ out.Pairwise OrderLe
      ∧ ∀ k : Int, out.filter (fun x => decide (x.order = k))
          = arr.filter (fun x => decide (x.order = k))) ?_ ?_ arr
  · intro arr h
    refine ⟨List.Perm.refl _, ?_, fun _ => rfl⟩
    match arr, h with
    | [], _ => exact List.Pairwise.nil
    | [a], _ => exact List.pairwise_singleton _ _
  · rintro l r _ _ ⟨pl, hl, fl⟩ ⟨pr, hr, fr⟩
    refine ⟨(merge_order_perm _ _).trans (pl.append pr), merge_order_sorted _ _ hl hr, ?_⟩
    intro k
    rw [merge_order_filter k _ _ hl, fl, fr, List.filter_append]

/-! ## The two sorts in sequence -/

instance : IsAntisymm DATA OrderLt :=
  ⟨fun a b h1 h2 => by unfold OrderLt at h1 h2; omega⟩

/-- On a batch whose orders strictly increase, sorting by email and then by order leaves
exactly the first copies, in their original sequence. -/
theorem msort_msort_eq_firstCopies (arr : ARR) (h : arr.Pairwise OrderLt) :
    msort (msort arr "email") "order" = firstCopies arr := by
  obtain ⟨p2, s2, _⟩ := msort_order_spec (msort arr "email")
  obtain ⟨_, p1⟩ := msort_email_spec arr
  have p : (msort (msort arr "email") "order").Perm (firstCopies arr) := p2.trans p1
  have hf : (firstCopies arr).Pairwise OrderLt := h.sublist (firstCopies_sublist arr)
  have hne : (msort (msort arr "email") "order").Pairwise (fun a b => a.order ≠ b.order) := by
    refine (p.pairwise_iff (fun {x y} hxy => Ne.symm hxy)).2 ?_
    exact hf.imp (fun {a b} hab => by unfold OrderLt at hab; omega)
  have hlt : (msort (msort arr "email") "order").Pairwise OrderLt :=
    (s2.and hne).imp (fun {a b} hab => by
      have h1 := hab.1
      have h2 := hab.2
      unfold OrderLe at h1
      unfold OrderLt
      omega)
  exact List.eq_of_perm_of_sorted p hlt hf

/-! ## Ingestion -/

theorem readLoop_map_email (acc : ARR) (lines : List CString) :
    (readLoop acc lines).map DATA.email = acc.map DATA.email ++ lines := by
  induction lines generalizing acc with
  | nil => simp [readLoop]
  | cons e es ih => simp [readLoop, ih]

theorem readLoop_length (acc : ARR) (lines : List CString) :
    (readLoop acc lines).length = acc.length + lines.length := by
  induction lines generalizing acc with
  | nil => simp [readLoop]
  | cons e es ih => simp [readLoop, ih]; omega

theorem readLoop_orderLt (acc : ARR) (lines : List CString) (h : acc.Pairwise OrderLt)
    (hb : ∀ x ∈ acc, x.order < (acc.length : Int)) :
    (readLoop acc lines).Pairwise OrderLt := by
  induction lines generalizing acc with
  | nil => simpa [readLoop] using h
  | cons e es ih =>
    simp only [readLoop]
    apply ih
    · rw [List.pairwise_append]
      refine ⟨h, List.pairwise_singleton _ _, ?_⟩
      intro x hx y hy
      rw [List.mem_singleton] at hy
      subst hy
      exact hb x hx
    · intro x hx
      rcases List.mem_append.1 hx with hx | hx
      · have := hb x hx
        simp only [List.length_append, List.length_singleton]
        push_cast
        omega
      · rw [List.mem_singleton] at hx
        subst hx
        simp only [List.length_append, List.length_singleton]
        push_cast
        omega

theorem readLoop_map_order (acc : ARR) (lines : List CString) :
    (readLoop acc lines).map DATA.order
      = acc.map DATA.order ++ (List.range' acc.length lines.length).map Int.ofNat := by
  induction lines generalizing acc with
  | nil => simp [readLoop]
  | cons e es ih =>
    simp only [readLoop, ih, List.map_append, List.map_cons, List.map_nil, List.length_append,
      List.length_singleton, List.length_cons, List.range'_succ, List.append_assoc,
      List.singleton_append]
    rfl

theorem ingest_map_order (lines : List CString) :
    (ingest lines).map DATA.order = (List.range lines.length).map Int.ofNat := by
  simp [ingest, readLoop_map_order, List.range_eq_range']

theorem ingest_map_email (lines : List CString) : (ingest lines).map DATA.email = lines := by
  simp [ingest, readLoop_map_email]

theorem ingest_length (lines : List CString) : (ingest lines).length = lines.length := by
  simp [ingest, readLoop_length]

theorem ingest_orderLt (lines : List CString) : (ingest lines).Pairwise OrderLt :=
  readLoop_orderLt [] lines List.Pairwise.nil (by simp)

/-! ## First occurrences -/

theorem dropSeen_map_email (seen : List CString) (arr : ARR) :
    dropSeen seen (arr.map DATA.email)
      = ((firstCopies arr).filter (fun b => decide (b.email ∉ seen))).map DATA.email := by
  induction arr generalizing seen with
  | nil => simp [dropSeen, firstCopies]
  | cons a l ih =>
    simp only [List.map_cons, dropSeen, firstCopies]
    by_cases ha : a.email ∈ seen
    · rw [if_pos ha, ih, List.filter_cons_of_neg (by simpa using ha), List.filter_filter]
      congr 1
      apply List.filter_congr
      intro x _
      by_cases hx : x.email ∈ seen
      · simp [hx]
      · have : x.email ≠ a.email := fun e => hx (e ▸ ha)
        simp [hx, this]
    · rw [if_neg ha, ih, List.filter_cons_of_pos (by simpa using ha), List.filter_filter,
        List.map_cons]
      congr 2
      apply List.filter_congr
      intro x _
      by_cases hx : x.email ∈ seen <;> by_cases hxa : x.email = a.email <;> simp [hx, hxa]

theorem firstCopies_map_email (arr : ARR) :
    (firstCopies arr).map DATA.email = firstOccurrences (arr.map DATA.email) := by
  rw [firstOccurrences, dropSeen_map_email]
  simp

theorem dropSeen_sublist (seen l : List CString) : (dropSeen seen l).Sublist l := by
  induction l generalizing seen with
  | nil => exact List.Sublist.refl _
  | cons e es ih =>
    simp only [dropSeen]
    split_ifs
    · exact (ih seen).cons e
    · exact (ih (e :: seen)).cons₂ e

theorem dropSeen_not_mem (seen l : List CString) : ∀ e ∈ dropSeen seen l, e ∉ seen := by
  induction l generalizing seen with
  | nil => simp [dropSeen]
  | cons e es ih =>
    simp only [dropSeen]
    split_ifs with h
    · exact ih seen
    · intro x hx
      rcases List.mem_cons.1 hx with hx | hx
      · rw [hx]; exact h
      · exact fun hs => ih (e :: seen) x hx (List.mem_cons_of_mem _ hs)

theorem dropSeen_nodup (seen l : List CString) : (dropSeen seen l).Nodup := by
  induction l generalizing seen with
  | nil => simp [dropSeen]
  | cons e es ih =>
    simp only [dropSeen]
    split_ifs with h
    · exact ih seen
    · refine List.nodup_cons.2 ⟨?_, ih (e :: seen)⟩
      exact fun hm => dropSeen_not_mem (e :: seen) es e hm (List.mem_cons_self _ _)

theorem mem_dropSeen (seen l : List CString) (e : CString) :
    e ∈ dropSeen seen l ↔ e ∈ l ∧ e ∉ seen := by
  induction l generalizing seen with
  | nil => simp [dropSeen]
  | cons x xs ih =>
    simp only [dropSeen]
    split_ifs with h
    · rw [ih, List.mem_cons]
      constructor
      · rintro ⟨h1, h2⟩; exact ⟨Or.inr h1, h2⟩
      · rintro ⟨h1 | h1, h2⟩
        · exact absurd (h1 ▸ h) h2
        · exact ⟨h1, h2⟩
    · rw [List.mem_cons, ih, List.mem_cons, List.mem_cons]
      constructor
      · rintro (h1 | ⟨h1, h2⟩)
        · exact ⟨Or.inl h1, h1 ▸ h⟩
        · exact ⟨Or.inr h1, fun hs => h2 (Or.inr hs)⟩
      · rintro ⟨h1 | h1, h2⟩
        · exact Or.inl h1
        · by_cases hex : e = x
          · exact Or.inl hex
          · exact Or.inr ⟨h1, fun hs => hs.elim hex h2⟩

theorem dropSeen_of_nodup (seen l : List CString) (hl : l.Nodup) (hd : ∀ e ∈ l, e ∉ seen) :
    dropSeen seen l = l := by
  induction l generalizing seen with
  | nil => rfl
  | cons e es ih =>
    simp only [dropSeen]
    rw [if_neg (hd e (List.mem_cons_self _ _))]
    congr 1
    apply ih _ (List.nodup_cons.1 hl).2
    intro x hx hs
    rcases List.mem_cons.1 hs with hs | hs
    · exact (List.nodup_cons.1 hl).1 (hs ▸ hx)
    · exact hd x (List.mem_cons_of_mem _ hx) hs

theorem dropSeen_congr (s1 s2 l : List CString) (h : ∀ x, x ∈ s1 ↔ x ∈ s2) :
    dropSeen s1 l = dropSeen s2 l := by
  induction l generalizing s1 s2 with
  | nil => rfl
  | cons e es ih =>
    simp only [dropSeen]
    by_cases he : e ∈ s1
    · rw [if_pos he, if_pos ((h e).1 he)]
      exact ih s1 s2 h
    · rw [if_neg he, if_neg (fun h2 => he ((h e).2 h2))]
      congr 1
      apply ih
      intro x
      simp only [List.mem_cons, h x]

theorem dropSeen_length_add_countSeen (seen l : List CString) :
    (dropSeen seen l).length + countSeen seen l = l.length := by
  induction l generalizing seen with
  | nil => rfl
  | cons e es ih =>
    simp only [dropSeen, countSeen]
    have := ih (e :: seen)
    split_ifs with h
    · have e1 : dropSeen (e :: seen) es = dropSeen seen es := by
        apply dropSeen_congr
        intro x
        rw [List.mem_cons]
        constructor
        · rintro (hx | hx)
          · rw [hx]; exact h
          · exact hx
        · exact Or.inr
      rw [e1] at this
      simp only [List.length_cons]
      omega
    · simp only [List.length_cons]
      omega

theorem main_lines (lines : List CString) : (main lines).lines = firstOccurrences lines := by
  simp only [main]
  rw [msort_msort_eq_firstCopies _ (ingest_orderLt lines), firstCopies_map_email,
    ingest_map_email]

theorem main_found (lines : List CString) :
    (main lines).found = (countSeen [] lines : Int) := by
  have h1 : ((main lines).lines.length : Int) + (main lines).found = (lines.length : Int) := by
    simp only [main, List.length_map, ingest_length]
    omega
  have h2 := dropSeen_length_add_countSeen [] lines
  rw [main_lines, firstOccurrences] at h1
  omega

theorem firstOccurrences_of_nodup (l : List CString) (h : l.Nodup) :
    firstOccurrences l = l :=
  dropSeen_of_nodup [] l h (by simp)

/-! ## The claims about the pipeline -/

/-- C1. First-occurrence policy of the whole pipeline: for every input sequence of emails,
ingestion keeps the emails and gives the i-th one the order i, and sorting the ingested
batch by "email" then by "order" yields the input with every later repetition of an
already-seen value removed, so each distinct value occurs exactly once; and the input
b@x.com, a@x.com, b@x.com, c@x.com gives b@x.com, a@x.com, c@x.com. -/
theorem first_occurrence_policy :
    (∀ lines : List CString,
      (ingest lines).map DATA.email = lines
      ∧ (ingest lines).map DATA.order = (List.range lines.length).map Int.ofNat
      ∧ (msort (msort (ingest lines) "email") "order").map DATA.email = firstOccurrences lines
      ∧ ((msort (msort (ingest lines) "email") "order").map DATA.email).Nodup
      ∧ ∀ e : CString,
          e ∈ (msort (msort (ingest lines) "email") "order").map DATA.email ↔ e ∈ lines)
    ∧ (msort (msort (ingest [bytes "b@x.com", bytes "a@x.com", bytes "b@x.com",
          bytes "c@x.com"]) "email") "order").map DATA.email
        = [bytes "b@x.com", bytes "a@x.com", bytes "c@x.com"] := by
  have key : ∀ lines : List CString,
      (msort (msort (ingest lines) "email") "order").map DATA.email
        = firstOccurrences lines := main_lines
  refine ⟨fun lines =>
    ⟨ingest_map_email lines, ingest_map_order lines, key lines, ?_, ?_⟩, ?_⟩
  · rw [key]; exact dropSeen_nodup [] lines
  · intro e
    rw [key, firstOccurrences, mem_dropSeen]
    simp
  · rw [key]; decide

/-- C2. Order preservation: the emails the pipeline outputs form a subsequence of the
input emails (and the surviving records a subsequence of the ingested batch). -/
theorem output_is_subsequence (lines : List CString) :
    ((msort (msort (ingest lines) "email") "order").map DATA.email).Sublist lines
    ∧ (msort (msort (ingest lines) "email") "order").Sublist (ingest lines) := by
  constructor
  · have key : (msort (msort (ingest lines) "email") "order").map DATA.email
        = firstOccurrences lines := main_lines lines
    rw [key]
    exact dropSeen_sublist [] lines
  · rw [msort_msort_eq_firstCopies _ (ingest_orderLt lines)]
    exact firstCopies_sublist _

/-- C3. Idempotence of dedup: running the pipeline on the lines it printed prints the
same lines again. -/
theorem dedupe_idempotent (x : List CString) :
    (main (main x).lines).lines = (main x).lines := by
  rw [main_lines (main x).lines, main_lines x]
  exact firstOccurrences_of_nodup _ (dropSeen_nodup [] x)

theorem firstCopies_of_nodup (arr : ARR) (h : (arr.map DATA.email).Nodup) :
    firstCopies arr = arr := by
  induction arr with
  | nil => rfl
  | cons a l ih =>
    rw [List.map_cons, List.nodup_cons] at h
    simp only [firstCopies, ih h.2]
    congr 1
    rw [List.filter_eq_self]
    intro x hx
    have : x.email ≠ a.email := fun e => h.1 (e ▸ List.mem_map_of_mem _ hx)
    simpa using this

/-- C4. Identity on duplicate-free input: when the input emails are pairwise distinct,
the two sorts return the ingested batch itself, so the printed lines are the input lines
and no duplicate is reported. -/
theorem identity_on_distinct (lines : List CString) (h : lines.Nodup) :
    msort (msort (ingest lines) "email") "order" = ingest lines
    ∧ (main lines).lines = lines
    ∧ (main lines).found = 0 := by
  have key : msort (msort (ingest lines) "email") "order" = ingest lines := by
    rw [msort_msort_eq_firstCopies _ (ingest_orderLt lines)]
    exact firstCopies_of_nodup _ (by rw [ingest_map_email]; exact h)
  refine ⟨key, ?_, ?_⟩
  · simp only [main, key, ingest_map_email]
  · simp only [main, key]
    omega

/-- Witness of C4: five distinct emails in reverse alphabetical order come back
unchanged, with no duplicate found. -/
theorem identity_on_distinct_witness :
    [bytes "e@x.com", bytes "d@x.com", bytes "c@x.com", bytes "b@x.com",
        bytes "a@x.com"].Nodup
    ∧ msort (msort (ingest [bytes "e@x.com", bytes "d@x.com", bytes "c@x.com",
          bytes "b@x.com", bytes "a@x.com"]) "email") "order"
        = ingest [bytes "e@x.com", bytes "d@x.com", bytes "c@x.com", bytes "b@x.com",
            bytes "a@x.com"]
    ∧ (main [bytes "e@x.com", bytes "d@x.com", bytes "c@x.com", bytes "b@x.com",
          bytes "a@x.com"]).lines
        = [bytes "e@x.com", bytes "d@x.com", bytes "c@x.com", bytes "b@x.com",
            bytes "a@x.com"]
    ∧ (main [bytes "e@x.com", bytes "d@x.com", bytes "c@x.com", bytes "b@x.com",
          bytes "a@x.com"]).found = 0 :=
  ⟨by decide, identity_on_distinct _ (by decide)⟩

/-- C5. Count invariant: `main` reports as input count the number of ingested records,
the printed lines plus the reported duplicates make up that count, the number of
duplicates is not negative and equals the number of input lines whose value already
occurred earlier; and the input x, x, x prints x alone and reports 2 duplicates. -/
theorem count_invariant :
    (∀ lines : List CString,
      (main lines).sorted = ((ingest lines).length : Int)
      ∧ (main lines).sorted = (lines.length : Int)
      ∧ ((main lines).lines.length : Int) + (main lines).found = (main lines).sorted
      ∧ 0 ≤ (main lines).found
      ∧ (main lines).found = (countSeen [] lines : Int))
    ∧ main [bytes "x", bytes "x", bytes "x"]
        = { sorted := 3, found := 2, lines := [bytes "x"] } := by
  refine ⟨fun lines => ⟨rfl, ?_, ?_, ?_, main_found lines⟩, ?_⟩
  · simp only [main, ingest_length]
  · simp only [main, List.length_map]
    omega
  · rw [main_found]
    exact Int.ofNat_nonneg _
  · simp [main, ingest, readLoop, msort, merge, partList, partListLoop, strcmp, bytes]

/-! ## The claims about the sort by email -/

/-- C6. Value sort with collapse: for every batch, `msort(batch, "email")` returns records
whose emails are strictly ascending under `strcmp`, the emails of the result are exactly
the emails of the input, the length of the result is the number of distinct emails of the
input, and it is at most the input length. -/
theorem value_sort_collapses (arr : ARR) :
    (msort arr "email").Pairwise (fun a b => strcmp a.email b.email < 0)
    ∧ (∀ e : CString,
        e ∈ (msort arr "email").map DATA.email ↔ e ∈ arr.map DATA.email)
    ∧ (msort arr "email").length = (arr.map DATA.email).toFinset.card
    ∧ (msort arr "email").length ≤ arr.length := by
  obtain ⟨hs, hp⟩ := msort_email_spec arr
  have hmem : ∀ e : CString,
      e ∈ (msort arr "email").map DATA.email ↔ e ∈ arr.map DATA.email := by
    intro e
    rw [← mem_map_email_firstCopies arr]
    exact (hp.map DATA.email).mem_iff
  refine ⟨hs, hmem, ?_, ?_⟩
  · have hnd : ((msort arr "email").map DATA.email).Nodup := by
      rw [List.Nodup, List.pairwise_map]
      exact hs.imp (fun {a b} hab => EmailBefore.email_ne hab)
    have e1 : ((msort arr "email").map DATA.email).toFinset = (arr.map DATA.email).toFinset := by
      ext e
      simp only [List.mem_toFinset]
      exact hmem e
    rw [← e1, List.toFinset_card_of_nodup hnd, List.length_map]
  · rw [hp.length_eq]
    exact (firstCopies_sublist arr).length_le

theorem firstCopies_order_le (arr : ARR) (h : arr.Pairwise OrderLt) :
    ∀ y ∈ firstCopies arr, ∀ x ∈ arr, x.email = y.email → y.order ≤ x.order := by
  induction arr with
  | nil => simp [firstCopies]
  | cons a l ih =>
    intro y hy x hx e
    simp only [firstCopies, List.mem_cons] at hy
    rcases hy with hy | hy
    · subst hy
      rcases List.mem_cons.1 hx with hx | hx
      · rw [hx]
      · have : OrderLt y x := List.rel_of_pairwise_cons h hx
        unfold OrderLt at this
        omega
    · have hy2 := List.mem_filter.1 hy
      have hne : y.email ≠ a.email := by simpa using hy2.2
      rcases List.mem_cons.1 hx with hx | hx
      · exact absurd (hx ▸ e).symm hne
      · exact ih (List.Pairwise.of_cons h) y hy2.1 x hx e

/-- C7. Tie-break keeps the earliest copy: when the orders strictly increase along the
batch, every record of `msort(batch, "email")` is a record of the batch and has the
lowest order among the records of the batch that carry its email. -/
theorem earliest_copy_survives (arr : ARR)
    (h : arr.Pairwise (fun a b => a.order < b.order)) :
    ∀ y ∈ msort arr "email",
      y ∈ arr ∧ ∀ x ∈ arr, x.email = y.email → y.order ≤ x.order := by
  intro y hy
  have hy2 : y ∈ firstCopies arr := (msort_email_spec arr).2.mem_iff.1 hy
  exact ⟨(firstCopies_sublist arr).subset hy2, firstCopies_order_le arr h y hy2⟩

/-- Witness of C7: a batch with orders 0, 1, 2 whose first and last records share an
email. -/
theorem earliest_copy_survives_witness :
    ([⟨0, bytes "b@x.com"⟩, ⟨1, bytes "a@x.com"⟩, ⟨2, bytes "b@x.com"⟩] : ARR).Pairwise
        (fun a b => a.order < b.order)
    ∧ ∀ y ∈ msort [⟨0, bytes "b@x.com"⟩, ⟨1, bytes "a@x.com"⟩, ⟨2, bytes "b@x.com"⟩] "email",
        y ∈ ([⟨0, bytes "b@x.com"⟩, ⟨1, bytes "a@x.com"⟩, ⟨2, bytes "b@x.com"⟩] : ARR)
        ∧ ∀ x ∈ ([⟨0, bytes "b@x.com"⟩, ⟨1, bytes "a@x.com"⟩, ⟨2, bytes "b@x.com"⟩] : ARR),
            x.email = y.email → y.order ≤ x.order :=
  ⟨by decide, earliest_copy_survives _ (by decide)⟩

/-! ## The claims about the sort by order -/

/-- C8. Position sort without collapse: for every batch, also one in which several
records carry the same order, `msort(batch, "order")` is a permutation of the batch, of
the same length, with non-decreasing orders. -/
theorem position_sort_permutes (arr : ARR) :
    (msort arr "order").Perm arr
    ∧ (msort arr "order").length = arr.length
    ∧ (msort arr "order").Pairwise (fun a b => a.order ≤ b.order) := by
  obtain ⟨hp, hs, _⟩ := msort_order_spec arr
  exact ⟨hp, hp.length_eq, hs⟩

/-- C9. Stability: for every batch and every order value, the records of that order
appear in `msort(batch, "order")` in the same sequence as in the batch. -/
theorem position_sort_stable (arr : ARR) :
    (∀ k : Int, (msort arr "order").filter (fun x => decide (x.order = k))
        = arr.filter (fun x => decide (x.order = k)))
    ∧ ∀ x y : DATA, x.order = y.order → [x, y].Sublist arr →
        [x, y].Sublist (msort arr "order") := by
  refine ⟨(msort_order_spec arr).2.2, ?_⟩
  intro x y e hxy
  have h1 := hxy.filter (fun z => decide (z.order = y.order))
  have h2 : [x, y].filter (fun z => decide (z.order = y.order)) = [x, y] := by
    simp [e]
  rw [h2, ← (msort_order_spec arr).2.2 y.order] at h1
  exact h1.trans (List.filter_sublist _)

/-! ## The strict variant -/

theorem msortLt_of_length_le_one (arr : ARR) (sortBy : String) (h : arr.length ≤ 1) :
    msortLt arr sortBy = arr := by
  rw [msortLt]; simp [h]

theorem msortLt_of_one_lt_length (arr : ARR) (sortBy : String) (h : 1 < arr.length) :
    msortLt arr sortBy
      = mergeLt (msortLt (arr.take ((arr.length - 1) / 2 + 1)) sortBy)
          (msortLt (arr.drop ((arr.length - 1) / 2 + 1)) sortBy) sortBy := by
  rw [msortLt]
  have h1 : ¬ arr.length ≤ 1 := by omega
  simp only [h1, dite_false, partList_eq, List.drop_zero, Nat.sub_zero]
  have h2 : arr.length - 1 + 1 - ((arr.length - 1) / 2 + 1)
      = (arr.drop ((arr.length - 1) / 2 + 1)).length := by
    simp only [List.length_drop]; omega
  rw [h2, List.take_length]

theorem mergeLt_nil_left (right : ARR) (sortBy : String) :
    mergeLt [] right sortBy = right := by
  rw [mergeLt]

theorem mergeLt_nil_right (left : ARR) (sortBy : String) :
    mergeLt left [] sortBy = left := by
  cases left <;> rw [mergeLt]

theorem mergeLt_order_cons (a : DATA) (l : ARR) (b : DATA) (r : ARR) :
    mergeLt (a :: l) (b :: r) "order"
      = if a.order < b.order then a :: mergeLt l (b :: r) "order"
        else if a.order > b.order then b :: mergeLt (a :: l) r "order"
        else a :: mergeLt l r "order" := by
  rw [mergeLt]; simp

/-- When no order of the left part occurs in the right part, the two merges agree. -/
theorem merge_order_eq_mergeLt (l r : ARR) (h : ∀ a ∈ l, ∀ b ∈ r, a.order ≠ b.order) :
    merge l r "order" = mergeLt l r "order" := by
  induction l generalizing r with
  | nil => rw [merge_nil_left, mergeLt_nil_left]
  | cons a l ihl =>
    induction r with
    | nil => rw [merge_nil_right, mergeLt_nil_right]
    | cons b r ihr =>
      have hab : a.order ≠ b.order :=
        h a (List.mem_cons_self _ _) b (List.mem_cons_self _ _)
      have h1 : merge l (b :: r) "order" = mergeLt l (b :: r) "order" :=
        ihl (b :: r) (fun x hx y hy => h x (List.mem_cons_of_mem _ hx) y hy)
      have h2 : merge (a :: l) r "order" = mergeLt (a :: l) r "order" :=
        ihr (fun x hx y hy => h x hx y (List.mem_cons_of_mem _ hy))
      rw [merge_order_cons, mergeLt_order_cons, h1, h2]
      by_cases hle : a.order ≤ b.order
      · rw [if_pos hle, if_pos (by omega)]
      · rw [if_neg hle, if_neg (by omega), if_pos (by omega)]

/-- C10. The asymmetry between the tests `<=` and `<` is unobservable under unique
positions: on every batch whose orders are pairwise distinct, `msort(batch, "order")`
returns the same sequence as the variant whose merge tests `<` in the "order" branch. -/
theorem strict_variant_agrees (arr : ARR) (h : (arr.map DATA.order).Nodup) :
    msort arr "order" = msortLt arr "order" := by
  generalize hn : arr.length = n
  induction n using Nat.strong_induction_on generalizing arr with
  | _ n ih =>
    by_cases hle : arr.length ≤ 1
    · rw [msort_of_length_le_one arr _ hle, msortLt_of_length_le_one arr _ hle]
    · have h1 : 1 < arr.length := by omega
      have hl : (arr.take ((arr.length - 1) / 2 + 1)).length < n := by
        simp only [List.length_take]; omega
      have hr : (arr.drop ((arr.length - 1) / 2 + 1)).length < n := by
        simp only [List.length_drop]; omega
      have hsplit : (arr.take ((arr.length - 1) / 2 + 1)).map DATA.order
          ++ (arr.drop ((arr.length - 1) / 2 + 1)).map DATA.order = arr.map DATA.order := by
        rw [← List.map_append, List.take_append_drop]
      rw [← hsplit] at h
      have hnd := List.nodup_append.1 h
      rw [msort_of_one_lt_length arr _ h1, msortLt_of_one_lt_length arr _ h1,
        ← ih _ hl _ hnd.1 rfl, ← ih _ hr _ hnd.2.1 rfl]
      apply merge_order_eq_mergeLt
      intro a ha b hb e
      have ha2 : a ∈ arr.take ((arr.length - 1) / 2 + 1) :=
        (msort_order_spec _).1.mem_iff.1 ha
      have hb2 : b ∈ arr.drop ((arr.length - 1) / 2 + 1) :=
        (msort_order_spec _).1.mem_iff.1 hb
      exact hnd.2.2 (List.mem_map_of_mem _ ha2) (e ▸ List.mem_map_of_mem _ hb2)

/-- Witness of C10: a batch with the distinct orders 2, 0, 1. -/
theorem strict_variant_agrees_witness :
    (([⟨2, bytes "c"⟩, ⟨0, bytes "a"⟩, ⟨1, bytes "b"⟩] : ARR).map DATA.order).Nodup
    ∧ msort [⟨2, bytes "c"⟩, ⟨0, bytes "a"⟩, ⟨1, bytes "b"⟩] "order"
        = msortLt [⟨2, bytes "c"⟩, ⟨0, bytes "a"⟩, ⟨1, bytes "b"⟩] "order" :=
  ⟨by decide, strict_variant_agrees _ (by decide)⟩

/-- With a repeated order the two sorts differ: the strict variant drops a record. -/
theorem msortLt_drops_on_equal_orders :
    msort [⟨1, bytes "a"⟩, ⟨1, bytes "b"⟩] "order" = [⟨1, bytes "a"⟩, ⟨1, bytes "b"⟩]
    ∧ msortLt [⟨1, bytes "a"⟩, ⟨1, bytes "b"⟩] "order" = [⟨1, bytes "a"⟩] := by
  constructor
  · simp [msort, merge, partList, partListLoop]
  · simp [msortLt, mergeLt, partList, partListLoop]

/-! ## Records are only moved -/

theorem merge_subperm (sortBy : String) (l r : ARR) :
    (merge l r sortBy).Subperm (l ++ r) := by
  induction l generalizing r with
  | nil => rw [merge_nil_left]; exact List.Subperm.refl _
  | cons a l ihl =>
    induction r with
    | nil => rw [merge_nil_right, List.append_nil]
    | cons b r ihr =>
      rw [merge]
      split_ifs
      · exact (List.subperm_cons a).2 (ihl (b :: r))
      · exact ((List.subperm_cons b).2 ihr).trans List.perm_middle.symm.subperm
      · refine (List.subperm_cons a).2 ((ihl r).trans ?_)
        exact (List.Sublist.subperm
          (List.Sublist.append (List.Sublist.refl l) (List.sublist_cons_self b r)))

theorem subperm_append_both {l1 l2 r1 r2 : ARR} (hl : l1.Subperm l2) (hr : r1.Subperm r2) :
    (l1 ++ r1).Subperm (l2 ++ r2) :=
  ((List.subperm_append_right r1).2 hl).trans ((List.subperm_append_left l2).2 hr)

theorem msort_subperm (sortBy : String) (arr : ARR) : (msort arr sortBy).Subperm arr := by
  refine msort_induction sortBy (fun arr out => out.Subperm arr) ?_ ?_ arr
  · intro arr _
    exact List.Subperm.refl _
  · intro l r _ _ hl hr
    exact (merge_subperm sortBy _ _).trans (subperm_append_both hl hr)

theorem nodup_order_of_subperm {out arr : ARR} (h : out.Subperm arr)
    (hn : (arr.map DATA.order).Nodup) : (out.map DATA.order).Nodup := by
  obtain ⟨l, p, s⟩ := h
  exact ((p.map DATA.order).nodup_iff).1 (hn.sublist (s.map DATA.order))

/-- C11. Records are never altered, invented or duplicated by the engine: for the key
"email", for the key "order" (and for every other string), the records `msort` returns
are a sub-multiset of the records of the batch; so when the orders of the batch are
pairwise distinct, the orders of the result are pairwise distinct too. -/
theorem records_only_moved (arr : ARR) :
    (msort arr "email").Subperm arr
    ∧ (msort arr "order").Subperm arr
    ∧ (∀ sortBy : String, (msort arr sortBy).Subperm arr)
    ∧ ((arr.map DATA.order).Nodup →
        ((msort arr "email").map DATA.order).Nodup
        ∧ ((msort arr "order").map DATA.order).Nodup) :=
  ⟨msort_subperm _ arr, msort_subperm _ arr, fun s => msort_subperm s arr,
    fun hn => ⟨nodup_order_of_subperm (msort_subperm _ arr) hn,
      nodup_order_of_subperm (msort_subperm _ arr) hn⟩⟩

/-- C12. Base case and empty input: on a batch of length 0 or 1 `msort` returns the batch
unchanged, whatever the key; `main` on an empty input prints no line and reports 0 values
and 0 duplicates. -/
theorem base_case_and_empty_input :
    (∀ (arr : ARR) (sortBy : String), arr.length ≤ 1 → msort arr sortBy = arr)
    ∧ main [] = { sorted := 0, found := 0, lines := [] } := by
  refine ⟨fun arr sortBy h => msort_of_length_le_one arr sortBy h, ?_⟩
  simp [main, ingest, readLoop, msort]

/-- C16. Split point and partitions: for a batch of length n >= 2 and m = (n-1)/2 (the
integer quotient), `partList(arr, 0, m)` is the m+1 first records and
`partList(arr, m+1, n-1)` the n-m-1 remaining ones, in their sequence; both are non-empty,
the left is at least as long as the right, their concatenation is the batch, and `msort`
merges the sorted parts. -/
theorem split_point_and_partitions (arr : ARR) (sortBy : String) (h : 2 ≤ arr.length) :
    partList arr 0 ((arr.length - 1) / 2) = arr.take ((arr.length - 1) / 2 + 1)
    ∧ partList arr ((arr.length - 1) / 2 + 1) (arr.length - 1)
        = arr.drop ((arr.length - 1) / 2 + 1)
    ∧ (∀ i : Nat, i ≤ (arr.length - 1) / 2 →
        (partList arr 0 ((arr.length - 1) / 2))[i]? = arr[i]?)
    ∧ (∀ i : Nat, (partList arr ((arr.length - 1) / 2 + 1) (arr.length - 1))[i]?
        = arr[(arr.length - 1) / 2 + 1 + i]?)
    ∧ (partList arr 0 ((arr.length - 1) / 2)).length = (arr.length - 1) / 2 + 1
    ∧ (partList arr ((arr.length - 1) / 2 + 1) (arr.length - 1)).length
        = arr.length - (arr.length - 1) / 2 - 1
    ∧ 0 < (partList arr ((arr.length - 1) / 2 + 1) (arr.length - 1)).length
    ∧ (partList arr ((arr.length - 1) / 2 + 1) (arr.length - 1)).length
        ≤ (partList arr 0 ((arr.length - 1) / 2)).length
    ∧ partList arr 0 ((arr.length - 1) / 2)
        ++ partList arr ((arr.length - 1) / 2 + 1) (arr.length - 1) = arr
    ∧ msort arr sortBy
        = merge (msort (partList arr 0 ((arr.length - 1) / 2)) sortBy)
            (msort (partList arr ((arr.length - 1) / 2 + 1) (arr.length - 1)) sortBy)
            sortBy := by
  have e1 : partList arr 0 ((arr.length - 1) / 2) = arr.take ((arr.length - 1) / 2 + 1) := by
    rw [partList_eq]; simp
  have e2 : partList arr ((arr.length - 1) / 2 + 1) (arr.length - 1)
      = arr.drop ((arr.length - 1) / 2 + 1) := by
    rw [partList_eq]
    apply List.take_of_length_le
    simp only [List.length_drop]
    omega
  refine ⟨e1, e2, ?_, ?_, ?_, ?_, ?_, ?_, ?_, ?_⟩
  · intro i hi
    rw [e1, List.getElem?_take_of_lt (by omega)]
  · intro i
    rw [e2, List.getElem?_drop]
  · rw [e1, List.length_take]; omega
  · rw [e2, List.length_drop]; omega
  · rw [e2, List.length_drop]; omega
  · rw [e1, e2, List.length_drop, List.length_take]; omega
  · rw [e1, e2, List.take_append_drop]
  · rw [e1, e2]
    exact msort_of_one_lt_length arr sortBy (by omega)

/-- Witness of C16: a batch of three records, split into two and one. -/
theorem split_point_and_partitions_witness :
    2 ≤ ([⟨0, bytes "c"⟩, ⟨1, bytes "a"⟩, ⟨2, bytes "b"⟩] : ARR).length
    ∧ partList [⟨0, bytes "c"⟩, ⟨1, bytes "a"⟩, ⟨2, bytes "b"⟩] 0 1
        = [⟨0, bytes "c"⟩, ⟨1, bytes "a"⟩]
    ∧ partList [⟨0, bytes "c"⟩, ⟨1, bytes "a"⟩, ⟨2, bytes "b"⟩] 2 2 = [⟨2, bytes "b"⟩] :=
  ⟨by decide,
    (split_point_and_partitions [⟨0, bytes "c"⟩, ⟨1, bytes "a"⟩, ⟨2, bytes "b"⟩] "email"
      (by decide)).1,
    (split_point_and_partitions [⟨0, bytes "c"⟩, ⟨1, bytes "a"⟩, ⟨2, bytes "b"⟩] "email"
      (by decide)).2.1⟩

/-! ## An unrecognised key -/

theorem merge_other_cons (sortBy : String) (h1 : sortBy ≠ "email") (h2 : sortBy ≠ "order")
    (a : DATA) (l : ARR) (b : DATA) (r : ARR) :
    merge (a :: l) (b :: r) sortBy = a :: merge l r sortBy := by
  rw [merge]; simp [h1, h2]

theorem merge_other (sortBy : String) (h1 : sortBy ≠ "email") (h2 : sortBy ≠ "order")
    (l r : ARR) : merge l r sortBy = l ++ r.drop l.length := by
  induction l generalizing r with
  | nil => simp [merge_nil_left]
  | cons a l ih =>
    cases r with
    | nil => simp [merge_nil_right]
    | cons b r =>
      rw [merge_other_cons sortBy h1 h2, ih]
      simp

theorem msort_other (sortBy : String) (h1 : sortBy ≠ "email") (h2 : sortBy ≠ "order")
    (arr : ARR) : msort arr sortBy = arr.take 1 := by
  refine msort_induction sortBy (fun arr out => out = arr.take 1) ?_ ?_ arr
  · intro arr h
    exact (List.take_of_length_le h).symm
  · intro l r hl hr el er
    rw [el, er, merge_other sortBy h1 h2]
    cases l with
    | nil => exact absurd rfl hl
    | cons a l =>
      cases r with
      | nil => exact absurd rfl hr
      | cons b r => simp

/-- C19. An unrecognised sort key silently discards data: when `sortBy` is neither "email"
nor "order", one turn of the main loop of `merge` always emits the left record and
advances both cursors, so `merge` returns `left` followed by the records of `right` from
index `left.length` on, and `msort` returns of every non-empty batch its first record
alone. -/
theorem unknown_key_discards (sortBy : String) (h1 : sortBy ≠ "email")
    (h2 : sortBy ≠ "order") :
    (∀ (a : DATA) (l : ARR) (b : DATA) (r : ARR),
      merge (a :: l) (b :: r) sortBy = a :: merge l r sortBy)
    ∧ (∀ left right : ARR, merge left right sortBy = left ++ right.drop left.length)
    ∧ (∀ (a : DATA) (l : ARR), msort (a :: l) sortBy = [a]) := by
  refine ⟨merge_other_cons sortBy h1 h2, merge_other sortBy h1 h2, ?_⟩
  intro a l
  rw [msort_other sortBy h1 h2]
  rfl

/-- Witness of C19: the key "name". -/
theorem unknown_key_discards_witness :
    "name" ≠ "email" ∧ "name" ≠ "order"
    ∧ msort [⟨0, bytes "b"⟩, ⟨1, bytes "a"⟩, ⟨2, bytes "c"⟩] "name" = [⟨0, bytes "b"⟩] :=
  ⟨by decide, by decide,
    (unknown_key_discards "name" (by decide) (by decide)).2.2 ⟨0, bytes "b"⟩ _⟩

/-! ## One merge by email -/

/-- C15. Merge step on sorted, duplicate-free partitions: when the emails of `left` and of
`right` are strictly ascending under `strcmp`, `merge(left, right, "email")` is strictly
ascending, its emails are those of `left` together with those of `right`, it consists of
the records of `left` and of the records of `right` whose email does not occur in `left`
(a common email is represented by the left record, the right copy is not emitted), and its
length is the sum of the two lengths minus the number of common emails. -/
theorem merge_sorted_partitions (left right : ARR)
    (hl : left.Pairwise (fun a b => strcmp a.email b.email < 0))
    (hr : right.Pairwise (fun a b => strcmp a.email b.email < 0)) :
    (merge left right "email").Pairwise (fun a b => strcmp a.email b.email < 0)
    ∧ (∀ e : CString, e ∈ (merge left right "email").map DATA.email
        ↔ e ∈ left.map DATA.email ∨ e ∈ right.map DATA.email)
    ∧ (merge left right "email").Perm
        (left ++ right.filter (fun b => decide (b.email ∉ left.map DATA.email)))
    ∧ (merge left right "email").length
          + ((left.map DATA.email).toFinset ∩ (right.map DATA.email).toFinset).card
        = left.length + right.length := by
  have hp := merge_email_perm left right hl hr
  refine ⟨merge_email_sorted left right hl hr, ?_, hp, ?_⟩
  · intro e
    rw [(hp.map DATA.email).mem_iff, List.map_append, List.mem_append]
    constructor
    · rintro (h | h)
      · exact Or.inl h
      · rcases List.mem_map.1 h with ⟨x, hx, rfl⟩
        exact Or.inr (List.mem_map_of_mem _ (List.mem_filter.1 hx).1)
    · rintro (h | h)
      · exact Or.inl h
      · by_cases he : e ∈ left.map DATA.email
        · exact Or.inl he
        · rcases List.mem_map.1 h with ⟨x, hx, rfl⟩
          exact Or.inr (List.mem_map_of_mem _ (List.mem_filter.2 ⟨hx, by simpa using he⟩))
  · have hnd : (right.map DATA.email).Nodup := by
      rw [List.Nodup, List.pairwise_map]
      exact hr.imp (fun {a b} hab => EmailBefore.email_ne hab)
    have hcommon : ((left.map DATA.email).toFinset ∩ (right.map DATA.email).toFinset).card
        = (right.filter (fun b => decide (b.email ∈ left.map DATA.email))).length := by
      have hnd2 : ((right.filter
          (fun b => decide (b.email ∈ left.map DATA.email))).map DATA.email).Nodup :=
        hnd.sublist ((List.filter_sublist _).map DATA.email)
      rw [← List.length_map _ DATA.email, ← List.toFinset_card_of_nodup hnd2]
      congr 1
      ext e
      simp only [Finset.mem_inter, List.mem_toFinset, List.mem_map, List.mem_filter,
        decide_eq_true_eq]
      constructor
      · rintro ⟨h1, x, hx, rfl⟩
        exact ⟨x, ⟨hx, h1⟩, rfl⟩
      · rintro ⟨x, ⟨hx, h1⟩, rfl⟩
        exact ⟨h1, x, hx, rfl⟩
    have hsplit := @List.length_eq_length_filter_add DATA right
      (fun b : DATA => decide (b.email ∈ left.map DATA.email))
    have hnot : right.filter (fun b => !(decide (b.email ∈ left.map DATA.email)))
        = right.filter (fun b => decide (b.email ∉ left.map DATA.email)) := by
      apply List.filter_congr
      intro x _
      by_cases hx : x.email ∈ left.map DATA.email
      · rw [decide_eq_true hx, decide_eq_false (not_not_intro hx)]; rfl
      · rw [decide_eq_false hx, decide_eq_true hx]; rfl
    rw [hp.length_eq, List.length_append, hcommon]
    rw [hnot] at hsplit
    omega

/-- Witness of C15: two sorted partitions that share the email b. -/
theorem merge_sorted_partitions_witness :
    ([⟨0, bytes "b"⟩, ⟨2, bytes "d"⟩] : ARR).Pairwise
        (fun a b => strcmp a.email b.email < 0)
    ∧ ([⟨3, bytes "a"⟩, ⟨1, bytes "b"⟩] : ARR).Pairwise
        (fun a b => strcmp a.email b.email < 0)
    ∧ (merge [⟨0, bytes "b"⟩, ⟨2, bytes "d"⟩] [⟨3, bytes "a"⟩, ⟨1, bytes "b"⟩]
        "email").Perm
        ([⟨0, bytes "b"⟩, ⟨2, bytes "d"⟩]
          ++ ([⟨3, bytes "a"⟩, ⟨1, bytes "b"⟩] : ARR).filter
              (fun b => decide (b.email ∉
                ([⟨0, bytes "b"⟩, ⟨2, bytes "d"⟩] : ARR).map DATA.email))) :=
  ⟨by decide, by decide,
    (merge_sorted_partitions [⟨0, bytes "b"⟩, ⟨2, bytes "d"⟩]
      [⟨3, bytes "a"⟩, ⟨1, bytes "b"⟩] (by decide) (by decide)).2.2.1⟩

/-! ## Reading the file -/

theorem readBuffers_nil : readBuffers [] = [] := by
  rw [readBuffers]; rfl

theorem readBuffers_cons (c : Nat) (cs : List Nat) :
    readBuffers (c :: cs)
      = trimNewline (cstr (fgetsLoop 49 (c :: cs)).1)
          :: readBuffers (fgetsLoop 49 (c :: cs)).2 := by
  rw [readBuffers]; rfl

theorem fgetsLoop_line (room : Nat) (l rest : List Nat) (h10 : 10 ∉ l)
    (hlen : l.length < room) : fgetsLoop room (l ++ 10 :: rest) = (l ++ [10], rest) := by
  induction l generalizing room with
  | nil =>
    cases room with
    | zero => simp at hlen
    | succ k => simp [fgetsLoop]
  | cons c cs ih =>
    cases room with
    | zero => simp at hlen
    | succ k =>
      have hc : c ≠ 10 := fun e => h10 (e ▸ List.mem_cons_self _ _)
      have h10b : 10 ∉ cs := fun hm => h10 (List.mem_cons_of_mem _ hm)
      have hlen2 : cs.length < k := by simp only [List.length_cons] at hlen; omega
      have e := ih k h10b hlen2
      rw [List.cons_append, fgetsLoop, if_neg hc, e]
      rfl

theorem fgetsLoop_last (room : Nat) (l : List Nat) (h10 : 10 ∉ l) (hlen : l.length ≤ room) :
    fgetsLoop room l = (l, []) := by
  induction l generalizing room with
  | nil => cases room <;> simp [fgetsLoop]
  | cons c cs ih =>
    cases room with
    | zero => simp at hlen
    | succ k =>
      have hc : c ≠ 10 := fun e => h10 (e ▸ List.mem_cons_self _ _)
      have h10b : 10 ∉ cs := fun hm => h10 (List.mem_cons_of_mem _ hm)
      have hlen2 : cs.length ≤ k := by simp only [List.length_cons] at hlen; omega
      simp only [fgetsLoop, if_neg hc, ih k h10b hlen2]

theorem cstr_of_not_mem (l : List Nat) (h0 : 0 ∉ l) : cstr l = l := by
  unfold cstr
  rw [List.takeWhile_eq_self_iff]
  intro x hx
  have : x ≠ 0 := fun e => h0 (e ▸ hx)
  simpa using this

theorem trimNewline_append_newline (l : List Nat) : trimNewline (l ++ [10]) = l := by
  simp [trimNewline]

theorem trimNewline_of_not_mem (l : List Nat) (h10 : 10 ∉ l) : trimNewline l = l := by
  unfold trimNewline
  rw [if_neg]
  intro h
  exact h10 (List.mem_of_getLast?_eq_some h)

/-- On a file whose lines are non-empty, hold no newline, no NUL and at most 48 bytes,
the loop reads the lines one by one. -/
theorem readBuffers_fileOf (lines : List CString)
    (h : ∀ l ∈ lines, l ≠ [] ∧ 10 ∉ l ∧ 0 ∉ l ∧ l.length ≤ 48) :
    readBuffers (fileOf lines) = lines := by
  induction lines with
  | nil => exact readBuffers_nil
  | cons l ls ih =>
    obtain ⟨hne, h10, h0, hlen⟩ := h l (List.mem_cons_self _ _)
    have hrest : ∀ x ∈ ls, x ≠ [] ∧ 10 ∉ x ∧ 0 ∉ x ∧ x.length ≤ 48 :=
      fun x hx => h x (List.mem_cons_of_mem _ hx)
    cases l with
    | nil => exact absurd rfl hne
    | cons c cs =>
      cases ls with
      | nil =>
        show readBuffers (c :: cs) = [c :: cs]
        rw [readBuffers_cons, fgetsLoop_last 49 (c :: cs) h10 (by omega),
          cstr_of_not_mem _ h0, trimNewline_of_not_mem _ h10, readBuffers_nil]
      | cons l2 ls2 =>
        show readBuffers (c :: (cs ++ 10 :: fileOf (l2 :: ls2))) = (c :: cs) :: l2 :: ls2
        have e := fgetsLoop_line 49 (c :: cs) (fileOf (l2 :: ls2)) h10 (by omega)
        rw [List.cons_append] at e
        have h0b : 0 ∉ (c :: cs) ++ [10] := by
          intro hm
          rcases List.mem_append.1 hm with hm | hm
          · exact h0 hm
          · simp at hm
        rw [readBuffers_cons, e, cstr_of_not_mem _ h0b, trimNewline_append_newline, ih hrest]

theorem readLoopItem_eq (acc : ARR) (lines : List CString)
    (h : acc.length + lines.length ≤ itemRoom) :
    readLoopItem acc lines = some (readLoop acc lines) := by
  induction lines generalizing acc with
  | nil => rfl
  | cons e es ih =>
    simp only [List.length_cons] at h
    rw [readLoopItem, if_pos (by omega), readLoop]
    apply ih
    simp only [List.length_append, List.length_singleton]
    omega

theorem readLoopItem_length_le (acc : ARR) (lines : List CString) (batch : ARR)
    (ha : acc.length ≤ itemRoom) (h : readLoopItem acc lines = some batch) :
    batch.length ≤ itemRoom := by
  induction lines generalizing acc with
  | nil =>
    simp only [readLoopItem, Option.some.injEq] at h
    rw [← h]; exact ha
  | cons e es ih =>
    rw [readLoopItem] at h
    split_ifs at h with hlt
    exact ih _ (by simp only [List.length_append, List.length_singleton]; omega) h

theorem readFile_eq (stream : List Nat) (h : (readBuffers stream).length ≤ itemRoom) :
    readFile stream = some (ingest (readBuffers stream)) := by
  rw [readFile, ingest]
  exact readLoopItem_eq [] _ (by simpa using h)

/-! ## The claims about ingestion -/

/-- C13, as stated, fails: the reading loop, run on a file of `MAXSIZE + 1` one-letter
lines, stays within the room of `emailList->item` and returns a batch of more than
`MAXSIZE` records. -/
theorem capacity_not_enforced :
    ∃ batch : ARR, readFile (fileOf (List.replicate (MAXSIZE + 1) [97])) = some batch
      ∧ batch.length = MAXSIZE + 1
      ∧ ¬ (batch.length ≤ MAXSIZE) := by
  have h : ∀ l ∈ List.replicate (MAXSIZE + 1) [97],
      l ≠ [] ∧ 10 ∉ l ∧ 0 ∉ l ∧ l.length ≤ 48 := by
    intro l hl
    rw [List.eq_of_mem_replicate hl]
    decide
  have hroom : (readBuffers (fileOf (List.replicate (MAXSIZE + 1) [97]))).length
      ≤ itemRoom := by
    rw [readBuffers_fileOf _ h, List.length_replicate]
    decide
  refine ⟨_, readFile_eq _ hroom, ?_, ?_⟩
  · rw [readBuffers_fileOf _ h, ingest_length, List.length_replicate]
  · rw [readBuffers_fileOf _ h, ingest_length, List.length_replicate]
    omega

/-- C13, amended. The reading loop has no test against `MAXSIZE`: for a file of at most
`itemRoom` (1050000, the room of `emailList->item`) non-empty lines of at most 48 bytes,
it returns a batch with one record per line, so that the batch holds at most `MAXSIZE`
records exactly when the file has at most `MAXSIZE` lines; in particular it holds at most
`MAXSIZE` records whenever the file has at most `MAXSIZE` lines. -/
theorem batch_size_is_line_count (lines : List CString)
    (h : ∀ l ∈ lines, l ≠ [] ∧ 10 ∉ l ∧ 0 ∉ l ∧ l.length ≤ 48)
    (hroom : lines.length ≤ itemRoom) :
    ∃ batch : ARR, readFile (fileOf lines) = some batch
      ∧ batch = ingest lines
      ∧ batch.length = lines.length
      ∧ (batch.length ≤ MAXSIZE ↔ lines.length ≤ MAXSIZE)
      ∧ (lines.length ≤ MAXSIZE → batch.length ≤ MAXSIZE) := by
  have e : readFile (fileOf lines) = some (ingest lines) := by
    have := readFile_eq (fileOf lines) (by rw [readBuffers_fileOf _ h]; exact hroom)
    rw [readBuffers_fileOf _ h] at this
    exact this
  refine ⟨ingest lines, e, rfl, ingest_length lines, ?_, ?_⟩
  · rw [ingest_length]
  · rw [ingest_length]; exact id

/-- Witness of the amended C13: a file of two lines. -/
theorem batch_size_is_line_count_witness :
    (∀ l ∈ [bytes "b@x.com", bytes "a@x.com"], l ≠ [] ∧ 10 ∉ l ∧ 0 ∉ l ∧ l.length ≤ 48)
    ∧ [bytes "b@x.com", bytes "a@x.com"].length ≤ itemRoom
    ∧ ∃ batch : ARR, readFile (fileOf [bytes "b@x.com", bytes "a@x.com"]) = some batch
      ∧ batch = ingest [bytes "b@x.com", bytes "a@x.com"]
      ∧ batch.length = [bytes "b@x.com", bytes "a@x.com"].length
      ∧ (batch.length ≤ MAXSIZE ↔ [bytes "b@x.com", bytes "a@x.com"].length ≤ MAXSIZE)
      ∧ ([bytes "b@x.com", bytes "a@x.com"].length ≤ MAXSIZE → batch.length ≤ MAXSIZE) :=
  ⟨by decide, by decide,
    batch_size_is_line_count [bytes "b@x.com", bytes "a@x.com"] (by decide) (by decide)⟩

/-- C14, the program on a line of 50 letters: `fgets` fills `buff` with the 49 first ones,
the next call returns the last one, and the batch gets two records for the one line. A
line of 49 letters followed by a second line gives three records, the middle one with an
empty email. -/
theorem line_of_fifty_is_split :
    ingest (readBuffers (fileOf [List.replicate 50 97]))
      = [⟨0, List.replicate 49 97⟩, ⟨1, [97]⟩]
    ∧ ingest (readBuffers (fileOf [List.replicate 49 97, [98]]))
      = [⟨0, List.replicate 49 97⟩, ⟨1, []⟩, ⟨2, [98]⟩] := by
  constructor
  · have e1 : fgetsLoop 49 (97 :: List.replicate 49 97) = (List.replicate 49 97, [97]) := by
      decide
    have e2 : fgetsLoop 49 [97] = ([97], []) := by decide
    have e3 : trimNewline (cstr (List.replicate 49 97)) = List.replicate 49 97 := by decide
    have e4 : trimNewline (cstr [97]) = [97] := by decide
    have e : readBuffers (fileOf [List.replicate 50 97]) = [List.replicate 49 97, [97]] := by
      show readBuffers (97 :: List.replicate 49 97) = _
      rw [readBuffers_cons, e1, readBuffers_cons, e2, readBuffers_nil, e3, e4]
    rw [e]
    rfl
  · have e1 : fgetsLoop 49 (97 :: (List.replicate 48 97 ++ [10, 98]))
        = (List.replicate 49 97, [10, 98]) := by decide
    have e2 : fgetsLoop 49 [10, 98] = ([10], [98]) := by decide
    have e3 : fgetsLoop 49 [98] = ([98], []) := by decide
    have e4 : trimNewline (cstr (List.replicate 49 97)) = List.replicate 49 97 := by decide
    have e5 : trimNewline (cstr [10]) = [] := by decide
    have e6 : trimNewline (cstr [98]) = [98] := by decide
    have e : readBuffers (fileOf [List.replicate 49 97, [98]])
        = [List.replicate 49 97, [], [98]] := by
      show readBuffers (97 :: (List.replicate 48 97 ++ [10, 98])) = _
      rw [readBuffers_cons, e1, readBuffers_cons, e2, readBuffers_cons, e3, readBuffers_nil,
        e4, e5, e6]
    rw [e]
    rfl

/-- What the reading loop does within the buffer: for a file of non-empty lines without
newline or NUL and of at most 48 bytes, the batch has one record per line, with the line
as email and its index as order. -/
theorem ingest_short_lines (lines : List CString)
    (h : ∀ l ∈ lines, l ≠ [] ∧ 10 ∉ l ∧ 0 ∉ l ∧ l.length ≤ 48) :
    (ingest (readBuffers (fileOf lines))).map DATA.email = lines
    ∧ (ingest (readBuffers (fileOf lines))).map DATA.order
        = (List.range lines.length).map Int.ofNat := by
  rw [readBuffers_fileOf _ h]
  exact ⟨ingest_map_email lines, ingest_map_order lines⟩

/-- A NUL byte in a line ends the email there: the bytes 61 00 62 0a 63 give the emails
`a` and `c`. -/
theorem readBuffers_stops_at_nul :
    readBuffers [97, 0, 98, 10, 99] = [[97], [99]] := by
  have e1 : fgetsLoop 49 [97, 0, 98, 10, 99] = ([97, 0, 98, 10], [99]) := by decide
  have e2 : fgetsLoop 49 [99] = ([99], []) := by decide
  have e3 : trimNewline (cstr [97, 0, 98, 10]) = [97] := by decide
  have e4 : trimNewline (cstr [99]) = [99] := by decide
  rw [readBuffers_cons, e1, readBuffers_cons, e2, readBuffers_nil, e3, e4]

/-! ## Termination -/

theorem partListLoopFuel_eq (arr : ARR) (start stop : Nat) (fuel : Nat) (newList : ARR)
    (h : stop + 1 - (newList.length + start) < fuel) :
    partListLoopFuel arr start stop fuel newList
      = some (partListLoop arr start stop newList) := by
  induction fuel generalizing newList with
  | zero => omega
  | succ k ih =>
    rw [partListLoopFuel, partListLoop]
    split_ifs with hc
    · cases hd : arr[newList.length + start]? with
      | none => rfl
      | some d =>
        simp only
        apply ih
        simp only [List.length_append, List.length_singleton]
        omega
    · rfl

theorem mergeCopyLoop_eq (src : ARR) (fuel index : Nat) (temp : ARR)
    (h : src.length - index < fuel) :
    mergeCopyLoop src fuel index temp = some (temp ++ src.drop index) := by
  induction fuel generalizing index temp with
  | zero => omega
  | succ k ih =>
    rw [mergeCopyLoop]
    cases hd : src[index]? with
    | none =>
      have : src.length ≤ index := by simpa using (List.getElem?_eq_none_iff.mp hd)
      simp [List.drop_eq_nil_of_le this]
    | some d =>
      obtain ⟨hlt, hd2⟩ := List.getElem?_eq_some.mp hd
      simp only
      rw [ih (index + 1) (temp ++ [d]) (by omega), List.drop_eq_getElem_cons hlt, hd2,
        List.append_assoc, List.singleton_append]

theorem mergeMainLoop_spec (left right : ARR) (sortBy : String) (fuel : Nat)
    (st : MergeState)
    (h : (left.length - st.leftIndex) + (right.length - st.rightIndex) < fuel) :
    ∃ st2 : MergeState, mergeMainLoop left right sortBy fuel st = some st2
      ∧ (left.length ≤ st2.leftIndex ∨ right.length ≤ st2.rightIndex)
      ∧ st2.temp ++ merge (left.drop st2.leftIndex) (right.drop st2.rightIndex) sortBy
          = st.temp ++ merge (left.drop st.leftIndex) (right.drop st.rightIndex) sortBy := by
  induction fuel generalizing st with
  | zero => omega
  | succ k ih =>
    rw [mergeMainLoop]
    cases hl : left[st.leftIndex]? with
    | none =>
      refine ⟨st, rfl, Or.inl ?_, rfl⟩
      simpa using (List.getElem?_eq_none_iff.mp hl)
    | some a =>
      cases hr : right[st.rightIndex]? with
      | none =>
        refine ⟨st, rfl, Or.inr ?_, rfl⟩
        simpa using (List.getElem?_eq_none_iff.mp hr)
      | some b =>
        obtain ⟨hlt, ha⟩ := List.getElem?_eq_some.mp hl
        obtain ⟨hrt, hb⟩ := List.getElem?_eq_some.mp hr
        have el : left.drop st.leftIndex = a :: left.drop (st.leftIndex + 1) := by
          rw [List.drop_eq_getElem_cons hlt, ha]
        have er : right.drop st.rightIndex = b :: right.drop (st.rightIndex + 1) := by
          rw [List.drop_eq_getElem_cons hrt, hb]
        simp only
        rw [el, er, merge]
        split_ifs with h1 h2
        · obtain ⟨st2, e, hx, he⟩ := ih
            { leftIndex := st.leftIndex + 1, rightIndex := st.rightIndex,
              temp := st.temp ++ [a] } (by simp only; omega)
          refine ⟨st2, e, hx, ?_⟩
          rw [he]
          simp only [er, List.append_assoc, List.singleton_append]
        · obtain ⟨st2, e, hx, he⟩ := ih
            { leftIndex := st.leftIndex, rightIndex := st.rightIndex + 1,
              temp := st.temp ++ [b] } (by simp only; omega)
          refine ⟨st2, e, hx, ?_⟩
          rw [he]
          simp only [el, List.append_assoc, List.singleton_append]
        · obtain ⟨st2, e, hx, he⟩ := ih
            { leftIndex := st.leftIndex + 1, rightIndex := st.rightIndex + 1,
              temp := st.temp ++ [a] } (by simp only; omega)
          refine ⟨st2, e, hx, ?_⟩
          rw [he]
          simp only [List.append_assoc, List.singleton_append]

theorem mergeFuel_eq (fuel : Nat) (left right : ARR) (sortBy : String)
    (h : left.length + right.length < fuel) :
    mergeFuel fuel left right sortBy = some (merge left right sortBy) := by
  obtain ⟨st2, e, hx, he⟩ := mergeMainLoop_spec left right sortBy fuel
    { leftIndex := 0, rightIndex := 0, temp := [] } (by simp only; omega)
  simp only [List.drop_zero, List.nil_append] at he
  rw [mergeFuel, e]
  simp only
  rw [mergeCopyLoop_eq left fuel st2.leftIndex st2.temp (by omega)]
  simp only
  rw [mergeCopyLoop_eq right fuel st2.rightIndex _ (by omega), ← he]
  rcases hx with hx | hx
  · rw [List.drop_eq_nil_of_le hx, merge_nil_left, List.append_nil]
  · rw [List.drop_eq_nil_of_le hx, merge_nil_right, List.append_nil]

theorem msort_length_le (sortBy : String) (arr : ARR) :
    (msort arr sortBy).length ≤ arr.length := by
  refine msort_induction sortBy (fun arr out => out.length ≤ arr.length) ?_ ?_ arr
  · intro arr _
    exact Nat.le_refl _
  · intro l r _ _ hl hr
    have := (merge_subperm sortBy (msort l sortBy) (msort r sortBy)).length_le
    simp only [List.length_append] at this ⊢
    omega

theorem msortFuel_eq (fuel : Nat) (arr : ARR) (sortBy : String) (h : arr.length < fuel) :
    msortFuel fuel arr sortBy = some (msort arr sortBy) := by
  induction fuel generalizing arr with
  | zero => omega
  | succ k ih =>
    rw [msortFuel]
    by_cases hle : arr.length ≤ 1
    · rw [if_pos hle, msort_of_length_le_one arr sortBy hle]
    · rw [if_neg hle]
      have h1 : 1 < arr.length := by omega
      have e1 : partListLoopFuel arr 0 ((arr.length - 1) / 2) (k + 1) []
          = some (arr.take ((arr.length - 1) / 2 + 1)) := by
        rw [partListLoopFuel_eq _ _ _ _ _ (by simp only [List.length_nil]; omega)]
        have := partList_eq arr 0 ((arr.length - 1) / 2)
        rw [partList] at this
        rw [this]
        simp
      have e2 : partListLoopFuel arr ((arr.length - 1) / 2 + 1) (arr.length - 1) (k + 1) []
          = some (arr.drop ((arr.length - 1) / 2 + 1)) := by
        rw [partListLoopFuel_eq _ _ _ _ _ (by simp only [List.length_nil]; omega)]
        have := partList_eq arr ((arr.length - 1) / 2 + 1) (arr.length - 1)
        rw [partList] at this
        rw [this]
        congr 1
        apply List.take_of_length_le
        simp only [List.length_drop]
        omega
      rw [e1, e2]
      simp only
      rw [ih (arr.take ((arr.length - 1) / 2 + 1)) (by simp only [List.length_take]; omega),
        ih (arr.drop ((arr.length - 1) / 2 + 1)) (by simp only [List.length_drop]; omega)]
      simp only
      rw [msort_of_one_lt_length arr sortBy h1]
      apply mergeFuel_eq
      have hl := msort_length_le sortBy (arr.take ((arr.length - 1) / 2 + 1))
      have hr := msort_length_le sortBy (arr.drop ((arr.length - 1) / 2 + 1))
      simp only [List.length_take, List.length_drop] at hl hr
      omega

/-- C18. Termination: `msort` returns on every batch and with every key. Run with a bound
on the recursion depth and on the number of turns of each loop of `partList` and `merge`,
it reaches no bound as soon as the bound exceeds the length of the batch, and returns the
sorted batch; for a batch of length at least two both partitions are strictly shorter than
the batch. -/
theorem msort_terminates (arr : ARR) (sortBy : String) :
    (∀ fuel : Nat, arr.length < fuel → msortFuel fuel arr sortBy = some (msort arr sortBy))
    ∧ (∀ (start stop fuel : Nat), stop + 1 - start < fuel →
        partListLoopFuel arr start stop fuel [] = some (partList arr start stop))
    ∧ (∀ (right : ARR) (fuel : Nat), arr.length + right.length < fuel →
        mergeFuel fuel arr right sortBy = some (merge arr right sortBy))
    ∧ (2 ≤ arr.length →
        (partList arr 0 ((arr.length - 1) / 2)).length < arr.length
        ∧ (partList arr ((arr.length - 1) / 2 + 1) (arr.length - 1)).length < arr.length) := by
  refine ⟨fun fuel h => msortFuel_eq fuel arr sortBy h, ?_, ?_, ?_⟩
  · intro start stop fuel h
    exact partListLoopFuel_eq arr start stop fuel [] (by simp only [List.length_nil]; omega)
  · intro right fuel h
    exact mergeFuel_eq fuel arr right sortBy h
  · intro h
    simp only [partList_eq, List.length_take, List.length_drop]
    omega

/-- A bound that is too small is reached: the bounded run can fail, so that its success
above says something. -/
theorem msortFuel_can_run_out :
    msortFuel 2 [⟨0, bytes "b"⟩, ⟨1, bytes "a"⟩, ⟨2, bytes "b"⟩] "email" = none := by
  decide

/-! ## Reading and writing memory -/

theorem load_lt {h : Heap} {p : Nat} {a : ARR} (e : load h p = some a) : p < h.length := by
  unfold load at e
  cases hp : h[p]? with
  | none => rw [hp] at e; simp at e
  | some x => exact (List.getElem?_eq_some.mp hp).1

theorem load_append_of_lt (h : Heap) (x : Option ARR) (p : Nat) (hp : p < h.length) :
    load (h ++ [x]) p = load h p := by
  unfold load
  rw [List.getElem?_append_left hp]

theorem load_append_length (h : Heap) (a : ARR) : load (h ++ [some a]) h.length = some a := by
  unfold load
  simp

theorem load_set_of_ne (h : Heap) (p q : Nat) (hne : q ≠ p) :
    load (h.set p none) q = load h q := by
  unfold load
  rw [List.getElem?_set_ne (Ne.symm hne)]

theorem release_of_load {h : Heap} {p : Nat} {a : ARR} (e : load h p = some a) :
    release h p = Except.ok (h.set p none) := by
  unfold release
  rw [e]

theorem msort_unfold (a : ARR) (sortBy : String) (h : ¬ a.length ≤ 1) :
    msort a sortBy
      = merge (msort (partList a 0 ((a.length - 1) / 2)) sortBy)
          (msort (partList a ((a.length - 1) / 2 + 1) (a.length - 1)) sortBy) sortBy := by
  rw [msort]
  simp only [h, dite_false]

theorem partList_left_length (a : ARR) (h : ¬ a.length ≤ 1) :
    (partList a 0 ((a.length - 1) / 2)).length = (a.length - 1) / 2 + 1 := by
  simp only [partList_eq, List.length_take, List.length_drop]
  omega

theorem partList_right_length (a : ARR) (h : ¬ a.length ≤ 1) :
    (partList a ((a.length - 1) / 2 + 1) (a.length - 1)).length
      = a.length - ((a.length - 1) / 2 + 1) := by
  simp only [partList_eq, List.length_take, List.length_drop]
  omega

/-! ## The sort on the memory with the allocator of the C standard -/

/-- The block that `partList(arr, 0, 0)` requests has one byte. -/
theorem partListH_overrun (h : Heap) (arr : Nat) (a : ARR) (hl : load h arr = some a)
    (hne : a ≠ []) : partListH exactMalloc h arr 0 0 = Except.error Fault.outOfBounds := by
  have hlen : (partList a 0 0).length = 1 := by
    cases a with
    | nil => exact absurd rfl hne
    | cons x xs => simp [partList_eq]
  rw [partListH, hl]
  simp only
  rw [if_neg]
  rw [hlen]
  decide

/-- With blocks of exactly the bytes requested, every call of `msort` on two or more
records stores past the end of an item buffer: the recursion on the left partitions
reaches a batch of two records, whose left partition is requested with one byte. -/
theorem msortH_overrun (fuel : Nat) (h : Heap) (arr : Nat) (a : ARR) (sortBy : String)
    (hl : load h arr = some a) (h2 : 2 ≤ a.length) (hf : a.length < fuel) :
    msortH exactMalloc fuel h arr sortBy = Except.error Fault.outOfBounds := by
  induction fuel generalizing h arr a with
  | zero => omega
  | succ k ih =>
    have hle : ¬ a.length ≤ 1 := by omega
    have harr : arr < h.length := load_lt hl
    rw [msortH, hl]
    simp only
    rw [if_neg hle]
    by_cases hm : (a.length - 1) / 2 = 0
    · rw [hm, partListH_overrun h arr a hl (by intro e; rw [e] at h2; simp at h2)]
    · have hlenL := partList_left_length a hle
      have hlenR := partList_right_length a hle
      have eL : partListH exactMalloc h arr 0 ((a.length - 1) / 2)
          = Except.ok (h ++ [some (partList a 0 ((a.length - 1) / 2))], h.length) := by
        rw [partListH, hl]
        simp only
        rw [if_pos]
        · rfl
        · rw [hlenL]
          unfold exactMalloc sizeofPointer sizeofDATA
          omega
      have hl1 : load (h ++ [some (partList a 0 ((a.length - 1) / 2))]) arr = some a := by
        rw [load_append_of_lt _ _ _ harr]; exact hl
      have eR : partListH exactMalloc (h ++ [some (partList a 0 ((a.length - 1) / 2))]) arr
            ((a.length - 1) / 2 + 1) (a.length - 1)
          = Except.ok (h ++ [some (partList a 0 ((a.length - 1) / 2))]
              ++ [some (partList a ((a.length - 1) / 2 + 1) (a.length - 1))],
              h.length + 1) := by
        rw [partListH, hl1]
        simp only
        rw [if_pos]
        · simp [alloc]
        · rw [hlenR]
          unfold exactMalloc sizeofPointer sizeofDATA
          omega
      rw [eL]
      simp only
      rw [eR]
      simp only
      have hloadL : load (h ++ [some (partList a 0 ((a.length - 1) / 2))]
          ++ [some (partList a ((a.length - 1) / 2 + 1) (a.length - 1))]) h.length
          = some (partList a 0 ((a.length - 1) / 2)) := by
        rw [load_append_of_lt _ _ _ (by simp)]
        exact load_append_length h _
      rw [ih _ h.length _ hloadL (by omega) (by omega)]

/-! ## The sort on the memory with blocks of at least eight bytes -/

/-- What a call of `msort` does to the memory when every block has at least the bytes
requested and at least the eight bytes of one pointer. -/
theorem msortH_spec (grant : Nat → Nat) (hg : ∀ n : Nat, n ≤ grant n)
    (h8 : sizeofPointer ≤ grant 1) (fuel : Nat) (h : Heap) (arr : Nat) (a : ARR)
    (sortBy : String) (hl : load h arr = some a) (hf : a.length < fuel) :
    ∃ (h2 : Heap) (q : Nat), msortH grant fuel h arr sortBy = Except.ok (h2, q)
      ∧ load h2 q = some (msort a sortBy)
      ∧ (∀ p : Nat, p < h.length → load h2 p = load h p)
      ∧ h.length ≤ h2.length
      ∧ (a.length ≤ 1 → q = arr ∧ h2 = h)
      ∧ (1 < a.length → h.length ≤ q) := by
  induction fuel generalizing h arr a with
  | zero => omega
  | succ k ih =>
    rw [msortH, hl]
    simp only
    by_cases hle : a.length ≤ 1
    · rw [if_pos hle]
      refine ⟨h, arr, rfl, ?_, fun _ _ => rfl, Nat.le_refl _, fun _ => ⟨rfl, rfl⟩, ?_⟩
      · rw [msort_of_length_le_one a sortBy hle]; exact hl
      · intro h1; omega
    · rw [if_neg hle]
      have harr : arr < h.length := load_lt hl
      have hlenL := partList_left_length a hle
      have hlenR := partList_right_length a hle
      -- the two partitions
      have roomL : sizeofPointer * (partList a 0 ((a.length - 1) / 2)).length
          ≤ grant (sizeofDATA * ((a.length - 1) / 2) - 0 + 1) := by
        rw [hlenL]
        by_cases hm : (a.length - 1) / 2 = 0
        · rw [hm]
          exact h8
        · refine Nat.le_trans ?_ (hg _)
          unfold sizeofPointer sizeofDATA
          omega
      have roomR : sizeofPointer * (partList a ((a.length - 1) / 2 + 1) (a.length - 1)).length
          ≤ grant (sizeofDATA * (a.length - 1) - ((a.length - 1) / 2 + 1) + 1) := by
        rw [hlenR]
        refine Nat.le_trans ?_ (hg _)
        unfold sizeofPointer sizeofDATA
        omega
      have eL : partListH grant h arr 0 ((a.length - 1) / 2)
          = Except.ok (h ++ [some (partList a 0 ((a.length - 1) / 2))], h.length) := by
        rw [partListH, hl]
        simp only
        rw [if_pos roomL]
        rfl
      have hl1 : load (h ++ [some (partList a 0 ((a.length - 1) / 2))]) arr = some a := by
        rw [load_append_of_lt _ _ _ harr]; exact hl
      have eR : partListH grant (h ++ [some (partList a 0 ((a.length - 1) / 2))]) arr
            ((a.length - 1) / 2 + 1) (a.length - 1)
          = Except.ok (h ++ [some (partList a 0 ((a.length - 1) / 2))]
              ++ [some (partList a ((a.length - 1) / 2 + 1) (a.length - 1))],
              h.length + 1) := by
        rw [partListH, hl1]
        simp only
        rw [if_pos roomR]
        simp [alloc]
      rw [eL]
      simp only
      rw [eR]
      simp only
      have hdecL := (msort_decreasing a hle).1
      have hdecR := (msort_decreasing a hle).2
      have hms := msort_unfold a sortBy hle
      clear roomL roomR eL eR hlenL hlenR
      generalize partList a 0 ((a.length - 1) / 2) = L at hdecL hl1 hms ⊢
      generalize partList a ((a.length - 1) / 2 + 1) (a.length - 1) = R at hdecR hms ⊢
      -- the recursive call on the left partition
      have hloadL : load (h ++ [some L] ++ [some R]) h.length = some L := by
        rw [load_append_of_lt _ _ _ (by simp)]
        exact load_append_length h L
      obtain ⟨h3, q1, e3, hq1, hold3, hlen3, hsmall1, hbig1⟩ :=
        ih (h ++ [some L] ++ [some R]) h.length L hloadL (by omega)
      rw [e3]
      simp only
      -- the recursive call on the right partition
      have hloadR : load h3 (h.length + 1) = some R := by
        rw [hold3 _ (by simp)]
        have := load_append_length (h ++ [some L]) R
        simpa using this
      obtain ⟨h4, q2, e4, hq2, hold4, hlen4, hsmall2, hbig2⟩ :=
        ih h3 (h.length + 1) R hloadR (by omega)
      rw [e4]
      simp only
      have hlen2 : (h ++ [some L] ++ [some R]).length = h.length + 2 := by simp
      rw [hlen2] at hlen3 hbig1
      have hq1lt : q1 < h3.length := load_lt hq1
      have hq2lt : q2 < h4.length := load_lt hq2
      have hq1ge : h.length ≤ q1 := by
        by_cases hL : L.length ≤ 1
        · rw [(hsmall1 hL).1]
        · have := hbig1 (by omega); omega
      have hq2ge : h.length + 1 ≤ q2 := by
        by_cases hR : R.length ≤ 1
        · rw [(hsmall2 hR).1]
        · have := hbig2 (by omega); omega
      have hq12 : q1 ≠ q2 := by
        by_cases hL : L.length ≤ 1
        · rw [(hsmall1 hL).1]; omega
        · have h1 := hbig1 (by omega)
          by_cases hR : R.length ≤ 1
          · rw [(hsmall2 hR).1]; omega
          · have h2 := hbig2 (by omega); omega
      -- the merge
      have hq1b : load h4 q1 = some (msort L sortBy) := by
        rw [hold4 q1 hq1lt]; exact hq1
      have roomM : sizeofPointer * (merge (msort L sortBy) (msort R sortBy) sortBy).length
          ≤ grant (sizeofDATA * ((msort L sortBy).length + (msort R sortBy).length)) := by
        refine Nat.le_trans ?_ (hg _)
        have := (merge_subperm sortBy (msort L sortBy) (msort R sortBy)).length_le
        rw [List.length_append] at this
        unfold sizeofPointer sizeofDATA
        omega
      have eM : mergeH grant h4 q1 q2 sortBy
          = Except.ok
              (h4 ++ [some (merge (msort L sortBy) (msort R sortBy) sortBy)], h4.length) := by
        rw [mergeH, hq1b, hq2]
        simp only
        rw [if_pos roomM]
        rfl
      rw [eM]
      simp only
      rw [← hms]
      -- the two frees
      have hq1c : load (h4 ++ [some (msort a sortBy)]) q1 = some (msort L sortBy) := by
        rw [load_append_of_lt _ _ _ (by omega)]; exact hq1b
      rw [release_of_load hq1c]
      simp only
      have hq2c : load ((h4 ++ [some (msort a sortBy)]).set q1 none) q2
          = some (msort R sortBy) := by
        rw [load_set_of_ne _ _ _ (Ne.symm hq12), load_append_of_lt _ _ _ hq2lt]; exact hq2
      rw [release_of_load hq2c]
      simp only
      refine ⟨_, _, rfl, ?_, ?_, ?_, ?_, ?_⟩
      · rw [load_set_of_ne _ _ _ (by omega), load_set_of_ne _ _ _ (by omega)]
        exact load_append_length h4 _
      · intro p hp
        rw [load_set_of_ne _ _ _ (by omega), load_set_of_ne _ _ _ (by omega),
          load_append_of_lt _ _ _ (by omega), hold4 p (by omega), hold3 p (by omega),
          load_append_of_lt _ _ _ (by simp; omega), load_append_of_lt _ _ _ hp]
      · simp only [List.length_set, List.length_append, List.length_singleton]
        omega
      · intro h1; omega
      · intro _; omega

/-- With blocks of at least the bytes requested and of at least eight bytes, a call of
`msort` on a live array `arr` returns and leaves `arr` and every object that existed
before the call as they were; the pointer returned holds the sorted items; it is `arr`
itself, the memory unchanged, when the length is at most one, and another object
otherwise. -/
theorem msortH_frame (grant : Nat → Nat) (hg : ∀ n : Nat, n ≤ grant n)
    (h8 : sizeofPointer ≤ grant 1) (fuel : Nat) (h : Heap) (arr : Nat) (a : ARR)
    (sortBy : String) (hl : load h arr = some a) (hf : a.length < fuel) :
    ∃ (h2 : Heap) (q : Nat), msortH grant fuel h arr sortBy = Except.ok (h2, q)
      ∧ load h2 arr = some a
      ∧ load h2 q = some (msort a sortBy)
      ∧ (∀ p : Nat, p < h.length → load h2 p = load h p)
      ∧ (a.length ≤ 1 → q = arr ∧ h2 = h)
      ∧ (1 < a.length → q ≠ arr) := by
  obtain ⟨h2, q, e, hq, hold, _, hsmall, hbig⟩ :=
    msortH_spec grant hg h8 fuel h arr a sortBy hl hf
  have harr : arr < h.length := load_lt hl
  refine ⟨h2, q, e, ?_, hq, hold, hsmall, ?_⟩
  · rw [hold arr harr]; exact hl
  · intro h1
    have := hbig h1
    omega

/-- On a batch of at most one record `msort` returns its argument and leaves the memory
as it is, whatever the allocator. -/
theorem msortH_small (grant : Nat → Nat) (fuel : Nat) (h : Heap) (arr : Nat) (a : ARR)
    (sortBy : String) (hl : load h arr = some a) (hle : a.length ≤ 1) :
    msortH grant (fuel + 1) h arr sortBy = Except.ok (h, arr) := by
  rw [msortH, hl]
  simp only
  rw [if_pos hle]

/-- With blocks of at least the bytes requested and of at least eight bytes, `main` on the
memory gives the report of `main`, for an input within the room of `emailList->item`. -/
theorem mainH_eq (grant : Nat → Nat) (hg : ∀ n : Nat, n ≤ grant n)
    (h8 : sizeofPointer ≤ grant 1) (fuel : Nat) (lines : List CString)
    (hroom : lines.length ≤ itemRoom) (hf : lines.length < fuel) :
    mainH grant fuel lines = Except.ok (main lines) := by
  have hA : load [some (ingest lines)] 0 = some (ingest lines) := rfl
  obtain ⟨h1, q1, e1, hq1, hold1, hlen1, _, _⟩ :=
    msortH_spec grant hg h8 fuel [some (ingest lines)] 0 (ingest lines) "email" hA
      (by rw [ingest_length]; exact hf)
  have hlen : (msort (ingest lines) "email").length < fuel := by
    have := msort_length_le "email" (ingest lines)
    rw [ingest_length] at this
    omega
  obtain ⟨h2, q2, e2, hq2, hold2, _, _, _⟩ :=
    msortH_spec grant hg h8 fuel h1 q1 (msort (ingest lines) "email") "order" hq1 hlen
  have h0 : load h2 0 = some (ingest lines) := by
    rw [hold2 0 (by simp only [List.length_singleton] at hlen1; omega),
      hold1 0 (by simp)]
    exact hA
  have ea : alloc [] (ingest lines) = ([some (ingest lines)], 0) := rfl
  have hr : sizeofPointer * (ingest lines).length ≤ grant (sizeofDATA * MAXSIZE) := by
    refine Nat.le_trans ?_ (hg _)
    rw [ingest_length]
    unfold itemRoom sizeofPointer sizeofDATA MAXSIZE at *
    omega
  rw [mainH, if_pos hr, ea]
  simp only
  rw [e1]
  simp only
  rw [e2]
  simp only
  rw [h0, hq2]
  rfl

/-- With blocks of exactly the bytes requested, `main` on two or more lines stores past
the end of an item buffer during the first sort. -/
theorem mainH_overrun (fuel : Nat) (lines : List CString) (h2 : 2 ≤ lines.length)
    (hroom : lines.length ≤ itemRoom) (hf : lines.length < fuel) :
    mainH exactMalloc fuel lines = Except.error Fault.outOfBounds := by
  have hA : load [some (ingest lines)] 0 = some (ingest lines) := rfl
  have ea : alloc [] (ingest lines) = ([some (ingest lines)], 0) := rfl
  have hr : sizeofPointer * (ingest lines).length ≤ exactMalloc (sizeofDATA * MAXSIZE) := by
    rw [ingest_length]
    unfold itemRoom exactMalloc sizeofPointer sizeofDATA MAXSIZE at *
    omega
  rw [mainH, if_pos hr, ea]
  simp only
  rw [msortH_overrun fuel [some (ingest lines)] 0 (ingest lines) "email" hA
    (by rw [ingest_length]; exact h2) (by rw [ingest_length]; exact hf)]

/-! ## The claim about the input batch -/

/-- C17, the program on a batch of two records. `partList(arr, 0, 0)` requests
`sizeof(DATA)*0-0+1`, one byte, for the item buffer of the left partition and stores a
pointer of eight bytes in it: with blocks of exactly the bytes requested, `partList`,
`msort` under either key and `main` on the lines b, a end in a store past the end of a
block, before `msort` returns. -/
theorem msort_overruns_partition :
    sizeofDATA * 0 - 0 + 1 = 1
    ∧ sizeofPointer = 8
    ∧ partListH exactMalloc [some [⟨0, bytes "b"⟩, ⟨1, bytes "a"⟩]] 0 0 0
        = Except.error Fault.outOfBounds
    ∧ msortH exactMalloc 3 [some [⟨0, bytes "b"⟩, ⟨1, bytes "a"⟩]] 0 "email"
        = Except.error Fault.outOfBounds
    ∧ msortH exactMalloc 3 [some [⟨0, bytes "b"⟩, ⟨1, bytes "a"⟩]] 0 "order"
        = Except.error Fault.outOfBounds
    ∧ mainH exactMalloc 3 [bytes "b", bytes "a"] = Except.error Fault.outOfBounds := by
  refine ⟨rfl, rfl, ?_, ?_, ?_, ?_⟩
  · exact partListH_overrun _ 0 [⟨0, bytes "b"⟩, ⟨1, bytes "a"⟩] rfl (by decide)
  · exact msortH_overrun 3 _ 0 [⟨0, bytes "b"⟩, ⟨1, bytes "a"⟩] "email" rfl (by decide)
      (by decide)
  · exact msortH_overrun 3 _ 0 [⟨0, bytes "b"⟩, ⟨1, bytes "a"⟩] "order" rfl (by decide)
      (by decide)
  · exact mainH_overrun 3 [bytes "b", bytes "a"] (by decide) (by decide) (by decide)

end Demo
